import Mathlib

/-!
# Verification of the palin-core model/index contract and in-memory backend

Shallow embedding of the `model` crate (`IndexValue`, `IndexDefinition`,
registry lookup), of the `db-impl-mock` crate (`MockDatabase`: insert, update,
delete, get, indexed lookups, and the index-maintenance helpers
`check_unique_violations`, `insert_indices_inner`, `delete_indices_inner`,
`format_index_key`), and of the backend-agnostic `Store::get_many` derived
operation from the `db-core` crate.

Rust `String` values are modelled as lists of unicode scalar values
(`List Char`), `HashMap`s as association lists with unique keys (the key
uniqueness is carried as an invariant), and the `Display` implementation of
`IndexValue` — `serde_json::to_string` of a `Vec<String>` — is modelled by an
explicit JSON array/string encoder reproducing serde_json's escaping rules.
-/

set_option linter.unusedSectionVars false
set_option linter.unusedVariables false

namespace Palin

/-- Rust `String`, modelled as its sequence of unicode scalar values. -/
abbrev Str := List Char

/-- The NUL character, used by `format_index_key` as the join delimiter. -/
def nulc : Char := Char.ofNat 0

/-- The double-quote character `"` (code 34). -/
def quot : Char := Char.ofNat 34

/-- The backslash character `\` (code 92). -/
def bsl : Char := Char.ofNat 92

/-- Lowercase hex digit, as used by serde_json's `\u00XX` escapes. -/
def hexDigit (n : Nat) : Char :=
  if n < 10 then Char.ofNat (48 + n) else Char.ofNat (87 + n)

/-- serde_json's escaping of one character inside a JSON string literal:
`"` and `\` get a backslash escape, the control characters BS, TAB, LF, FF,
CR get their short escapes, all other control characters below 0x20 become
`\u00XX` (lowercase hex), and every other character is emitted as itself. -/
def escChar (c : Char) : Str :=
  if c = quot then [bsl, quot]
  else if c = bsl then [bsl, bsl]
  else if c.toNat = 8 then [bsl, 'b']
  else if c.toNat = 9 then [bsl, 't']
  else if c.toNat = 10 then [bsl, 'n']
  else if c.toNat = 12 then [bsl, 'f']
  else if c.toNat = 13 then [bsl, 'r']
  else if c.toNat < 32 then [bsl, 'u', '0', '0', hexDigit (c.toNat / 16), hexDigit (c.toNat % 16)]
  else [c]

/-- serde_json's escaping of the body of a JSON string literal. -/
def escStr : Str → Str
  | [] => []
  | c :: rest => escChar c ++ escStr rest

/-- A JSON string literal: the escaped body surrounded by double quotes. -/
def encString (s : Str) : Str := quot :: (escStr s ++ [quot])

/-- Join a list of strings with a separator (Rust's `[String]::join`). -/
def joinSep (sep : Str) : List Str → Str
  | [] => []
  | [x] => x
  | x :: xs => x ++ sep ++ joinSep sep xs

/-- serde_json's serialization of a `Vec<String>`: a JSON array of string
literals, comma-separated, no whitespace. -/
def encArray (l : List Str) : Str :=
  '[' :: (joinSep [','] (l.map encString) ++ [']'])

/-- Verification-internal inverse of `hexDigit` (correct on hex digits;
used only to prove the encoding injective, not part of the embedded code). -/
def hexVal (c : Char) : Nat :=
  if c.toNat ≤ 57 then c.toNat - 48 else c.toNat - 87

/-- Verification-internal decoder for one `escChar`-escaped character (used
only to prove the encoding injective, not part of the embedded code). -/
def unescChar : Str → Option (Char × Str)
  | [] => none
  | c :: rest =>
    if c = bsl then
      match rest with
      | [] => none
      | e :: rest2 =>
        if e = quot then some (quot, rest2)
        else if e = bsl then some (bsl, rest2)
        else if e = 'b' then some (Char.ofNat 8, rest2)
        else if e = 't' then some (Char.ofNat 9, rest2)
        else if e = 'n' then some (Char.ofNat 10, rest2)
        else if e = 'f' then some (Char.ofNat 12, rest2)
        else if e = 'r' then some (Char.ofNat 13, rest2)
        else if e = 'u' then
          match rest2 with
          | _ :: _ :: d1 :: d2 :: rest3 =>
            some (Char.ofNat (hexVal d1 * 16 + hexVal d2), rest3)
          | _ => none
        else none
    else some (c, rest)

/-- `model::IndexValue`: a newtype over `Vec<String>` (ordered segments). -/
structure IndexValue where
  segs : List Str
deriving DecidableEq, Repr

/-- The `Display` implementation of `IndexValue`: serde_json serialization of
the segment vector. -/
def IndexValue.toStr (v : IndexValue) : Str := encArray v.segs

/-- `MockDatabase::format_index_key`: the `Display` forms of the extracted
`IndexValue`s joined with the NUL delimiter. -/
def format_index_key (values : List IndexValue) : Str :=
  joinSep [nulc] (values.map IndexValue.toStr)

/-! ## Association-list model of `std::collections::HashMap`

`HashMap` is modelled by an association list whose keys are unique; the key
uniqueness is maintained as an invariant of the reachable states. Iteration
order is irrelevant to every property proved below. -/

/-- `HashMap::get`. -/
def lookupA {K V : Type} [DecidableEq K] : List (K × V) → K → Option V
  | [], _ => none
  | (k', v) :: rest, k => if k' = k then some v else lookupA rest k

/-- `HashMap::insert` (replaces the binding when the key is present). -/
def insertA {K V : Type} [DecidableEq K] : List (K × V) → K → V → List (K × V)
  | [], k, v => [(k, v)]
  | (k', v') :: rest, k, v =>
    if k' = k then (k, v) :: rest else (k', v') :: insertA rest k v

/-- `HashMap::remove`. -/
def removeA {K V : Type} [DecidableEq K] : List (K × V) → K → List (K × V)
  | [], _ => []
  | (k', v') :: rest, k => if k' = k then rest else (k', v') :: removeA rest k

/-- `map.entry(k).or_default().push(i)` on a `HashMap<K, Vec I>`. -/
def pushEntry {K I : Type} [DecidableEq K] :
    List (K × List I) → K → I → List (K × List I)
  | [], k, i => [(k, [i])]
  | (k', v) :: rest, k, i =>
    if k' = k then (k', v ++ [i]) :: rest else (k', v) :: pushEntry rest k i

/-- The keys of an association list. -/
def keysA {K V : Type} (l : List (K × V)) : List K := l.map Prod.fst

/-- The bucket stored under key `k` (empty when the key is absent). -/
def bucketL {K I : Type} [DecidableEq K] (l : List (K × List I)) (k : K) :
    List I :=
  (lookupA l k).getD []

/-! ## The model/index contract (`model` crate) -/

/-- `db_core` / store error taxonomy (`miette::Report` payloads are modelled
by their message strings). -/
inductive DatabaseError where
  | NotFound (s : Str)
  | IndexNotFound (s : Str)
  | IndexNotUnique (s : Str)
  | UniqueViolation (index : Str) (value : Str)
  | Serialization (msg : Str)
  | Database (msg : Str)
  | Other (msg : Str)
deriving DecidableEq, Repr

/-- `model::IndexDefinition`: name, uniqueness flag, extraction function. -/
structure IndexDefinition (M : Type) where
  name : Str
  unique : Bool
  extractor : M → List IndexValue

/-- `IndexDefinition::extract`. -/
def IndexDefinition.extract {M : Type} (d : IndexDefinition M) (m : M) :
    List IndexValue :=
  d.extractor m

/-- The data of a `Model` implementation used by `MockDatabase`: the `id()`
accessor, the `Display` form of a `RecordId` (`id().to_string()`, opaque to
all proved properties), and the index registry `indices().definitions`.
`RecordId<M>` is modelled by the opaque type parameter `ι`; the
`IndexSelector` type is modelled by its `Display` form (a `Str`), which is
all the registry lookup consults. -/
structure ModelSig (M ι : Type) where
  id : M → ι
  idStr : ι → Str
  defs : List (IndexDefinition M)

/-- `IndexRegistry::get`: find the definition whose name equals the
selector's string form. -/
def registryGet {M : Type} (defs : List (IndexDefinition M)) (sel : Str) :
    Option (IndexDefinition M) :=
  defs.find? (fun d => decide (d.name = sel))

/-- The `(index name, composite key)` pair a definition files a model under. -/
def keyOf {M : Type} (d : IndexDefinition M) (m : M) : Str × Str :=
  (d.name, format_index_key (d.extract m))

/-! ## The in-memory backend (`db-impl-mock` crate) -/

/-- `MockDatabaseInner`: primary map `id -> model`, secondary map
`(index name, composite key) -> Vec<RecordId>`, plus the schema flag. -/
structure Inner (M ι : Type) where
  data : List (ι × M)
  indices : List ((Str × Str) × List ι)
  schemaReady : Bool

/-- The state `MockDatabase::new` starts from. -/
def emptyInner (M ι : Type) : Inner M ι := ⟨[], [], false⟩

variable {M ι : Type} [DecidableEq ι] [DecidableEq M]

/-- `MockDatabase::check_unique_violations`, looping over `defs` in order:
for each unique definition, if the bucket under the incoming model's key
holds any id different from `exclude_id`, fail with `UniqueViolation`. -/
def check_unique_violations (sig : ModelSig M ι) (st : Inner M ι) (m : M)
    (excludeId : Option ι) : List (IndexDefinition M) → Option DatabaseError
  | [] => none
  | d :: ds =>
    if d.unique then
      match lookupA st.indices (d.name, format_index_key (d.extract m)) with
      | some existingIds =>
        if existingIds.any (fun e => decide (some e ≠ excludeId)) then
          some (DatabaseError.UniqueViolation d.name (format_index_key (d.extract m)))
        else check_unique_violations sig st m excludeId ds
      | none => check_unique_violations sig st m excludeId ds
    else check_unique_violations sig st m excludeId ds

/-- `MockDatabase::insert_indices_inner`, looping over `defs` in order:
append the model's id to the bucket of each definition's key. (The Rust
function returns `Result` but never fails.) -/
def insert_indices_inner (sig : ModelSig M ι) (m : M) :
    List (IndexDefinition M) → List ((Str × Str) × List ι) →
    List ((Str × Str) × List ι)
  | [], ind => ind
  | d :: ds, ind => insert_indices_inner sig m ds (pushEntry ind (keyOf d m) (sig.id m))

/-- `MockDatabase::delete_indices_inner`: drop the id from every bucket and
drop every bucket that becomes empty (`HashMap::retain` with an inner
`Vec::retain`). -/
def delete_indices_inner (ind : List ((Str × Str) × List ι)) (i : ι) :
    List ((Str × Str) × List ι) :=
  ind.filterMap (fun kv =>
    let kept := kv.2.filter (fun rid => decide (rid ≠ i))
    if kept.isEmpty then none else some (kv.1, kept))

/-- `MockDatabase::insert`. The returned pair is (error, resulting state):
the state component tracks every mutation the Rust method performs before
returning, so an error paired with the input state is exactly the Rust
early-return path. -/
def insertOp (sig : ModelSig M ι) (st : Inner M ι) (m : M) :
    Option DatabaseError × Inner M ι :=
  if (lookupA st.data (sig.id m)).isSome then
    (some (DatabaseError.Database
      (("Record with id ".toList ++ sig.idStr (sig.id m)) ++ " already exists".toList)), st)
  else
    match check_unique_violations sig st m none sig.defs with
    | some e => (some e, st)
    | none =>
      let data1 := insertA st.data (sig.id m) m
      let ind1 := insert_indices_inner sig m sig.defs st.indices
      (none, { st with data := data1, indices := ind1 })

/-- `MockDatabase::update`. -/
def updateOp (sig : ModelSig M ι) (st : Inner M ι) (m : M) :
    Option DatabaseError × Inner M ι :=
  if (lookupA st.data (sig.id m)).isSome then
    match check_unique_violations sig st m (some (sig.id m)) sig.defs with
    | some e => (some e, st)
    | none =>
      let ind1 := delete_indices_inner st.indices (sig.id m)
      let data1 := insertA st.data (sig.id m) m
      let ind2 := insert_indices_inner sig m sig.defs ind1
      (none, { st with data := data1, indices := ind2 })
  else (some (DatabaseError.NotFound (sig.idStr (sig.id m))), st)

/-- `MockDatabase::delete`. -/
def deleteOp (sig : ModelSig M ι) (st : Inner M ι) (i : ι) :
    Option DatabaseError × Inner M ι :=
  if (lookupA st.data i).isSome then
    (none, { st with data := removeA st.data i,
                     indices := delete_indices_inner st.indices i })
  else (some (DatabaseError.NotFound (sig.idStr i)), st)

/-- `MockDatabase::get` (always `Ok`; the payload is modelled directly). -/
def getOp (st : Inner M ι) (i : ι) : Option M := lookupA st.data i

/-- `MockDatabase::find_by_unique_index`. -/
def find_by_unique_index (sig : ModelSig M ι) (st : Inner M ι) (sel : Str)
    (key : IndexValue) : Except DatabaseError (Option M) :=
  match registryGet sig.defs sel with
  | none => Except.error (DatabaseError.IndexNotFound sel)
  | some indexDef =>
    if indexDef.unique then
      match lookupA st.indices (indexDef.name, key.toStr) with
      | some recordIds =>
        match recordIds.head? with
        | some recordId => Except.ok (lookupA st.data recordId)
        | none => Except.ok none
      | none => Except.ok none
    else Except.error (DatabaseError.IndexNotUnique sel)

/-- `MockDatabase::find_by_index`: collect, in bucket order, every stored
model whose id is in the bucket. -/
def find_by_index (sig : ModelSig M ι) (st : Inner M ι) (sel : Str)
    (key : IndexValue) : Except DatabaseError (List M) :=
  match registryGet sig.defs sel with
  | none => Except.error (DatabaseError.IndexNotFound sel)
  | some indexDef =>
    match lookupA st.indices (indexDef.name, key.toStr) with
    | some recordIds => Except.ok (recordIds.filterMap (fun rid => lookupA st.data rid))
    | none => Except.ok []

/-- `MockDatabase::count` (`data.len() as i64`). -/
def countOp (st : Inner M ι) : Int := (st.data.length : Int)

/-- `Store::get_many` (db-core default method): loop over the ids, `?`-ing
each individual `get`, pushing results positionally. Abstract over the
backend's `get`. -/
def get_many {E A I : Type} (g : I → Except E A) : List I → Except E (List A)
  | [] => Except.ok []
  | i :: is =>
    match g i with
    | Except.error e => Except.error e
    | Except.ok v =>
      match get_many g is with
      | Except.error e => Except.error e
      | Except.ok l => Except.ok (v :: l)

/-- The mock backend's `get`, wrapped the way `DatabaseLike::get` returns it
(always `Ok`). -/
def mockGetE (st : Inner M ι) (i : ι) : Except DatabaseError (Option M) :=
  Except.ok (lookupA st.data i)

/-! ## Mutating operations as a transition system -/

/-- A completed mutating call on the mock database. -/
inductive Op (M ι : Type) where
  | ins (m : M)
  | upd (m : M)
  | del (i : ι)

/-- The state after a completed call (errors leave the state unchanged, as
proved below). -/
def applyOp (sig : ModelSig M ι) (st : Inner M ι) : Op M ι → Inner M ι
  | Op.ins m => (insertOp sig st m).2
  | Op.upd m => (updateOp sig st m).2
  | Op.del i => (deleteOp sig st i).2

/-- Whether an operation is an update or delete of the record id `i`. -/
def targetsId (sig : ModelSig M ι) (op : Op M ι) (i : ι) : Prop :=
  match op with
  | Op.ins _ => False
  | Op.upd m => sig.id m = i
  | Op.del i' => i' = i

/-- States reachable from the empty store by completed mutating calls. -/
inductive Reachable (sig : ModelSig M ι) : Inner M ι → Prop where
  | empty : Reachable sig (emptyInner M ι)
  | step (st : Inner M ι) (op : Op M ι) :
      Reachable sig st → Reachable sig (applyOp sig st op)

/-- The declared index names are pairwise distinct (the derive macro names
one index per selector variant). -/
def namesNodup (sig : ModelSig M ι) : Prop :=
  (sig.defs.map IndexDefinition.name).Nodup

/-- The bucket of the mock state under a `(index name, composite key)`. -/
def bucket (st : Inner M ι) (k : Str × Str) : List ι := bucketL st.indices k

/-- Whether definition `d` files record id `i` under map key `k` in state
`st`. -/
def defMatches (st : Inner M ι) (i : ι) (k : Str × Str)
    (d : IndexDefinition M) : Bool :=
  match lookupA st.data i with
  | some m => decide (keyOf d m = k)
  | none => false

/-- Master invariant of the mock state: the two maps have unique keys, the
data map binds each model under its own id, no bucket is empty, the
multiplicity of each id in each bucket is exactly the number of definitions
that file it there, and unique-index buckets hold at most one id. -/
structure MInv (sig : ModelSig M ι) (st : Inner M ι) : Prop where
  dataNodup : (keysA st.data).Nodup
  indNodup : (keysA st.indices).Nodup
  dataWF : ∀ i m, lookupA st.data i = some m → sig.id m = i
  noEmpty : ∀ kv ∈ st.indices, kv.2 ≠ []
  countChar : ∀ k i,
    List.count i (bucket st k) = List.countP (defMatches st i k) sig.defs
  uniqueLen : ∀ d ∈ sig.defs, d.unique = true →
    ∀ s, (bucket st (d.name, s)).length ≤ 1

/-! ## A concrete model fixture (used to instantiate the theorems) -/

/-- A tiny concrete model type for instantiations: `(id, payload)`. -/
abbrev TestM := Nat × Str

/-- A concrete unique index named `e` extracting the payload. -/
def dE : IndexDefinition TestM := ⟨['e'], true, fun m => [⟨[m.2]⟩]⟩

/-- A concrete non-unique index named `n` extracting the payload. -/
def dN : IndexDefinition TestM := ⟨['n'], false, fun m => [⟨[m.2]⟩]⟩

/-- A concrete `ModelSig` with a unique index `e` and a non-unique index `n`,
both extracting the payload. -/
def testSig : ModelSig TestM Nat where
  id := Prod.fst
  idStr := fun _ => []
  defs := [dE, dN]

/-- The state after inserting `(1, "a")` into the empty test store. -/
def stW1 : Inner TestM Nat :=
  applyOp testSig (emptyInner TestM Nat) (Op.ins (1, ['a']))

/-! ## Association-list lemmas -/

theorem keysA_nil {K V : Type} : keysA ([] : List (K × V)) = [] := rfl

theorem keysA_cons {K V : Type} (k0 : K) (v0 : V) (l : List (K × V)) :
    keysA ((k0, v0) :: l) = k0 :: keysA l := rfl

theorem lookupA_insertA_self {K V : Type} [DecidableEq K]
    (l : List (K × V)) (k : K) (v : V) :
    lookupA (insertA l k v) k = some v := by
  induction l with
  | nil => simp [insertA, lookupA]
  | cons hd tl ih =>
    obtain ⟨k0, v0⟩ := hd
    by_cases h : k0 = k
    · simp [insertA, h, lookupA]
    · simp [insertA, h, lookupA, ih]

theorem lookupA_insertA_ne {K V : Type} [DecidableEq K]
    (l : List (K × V)) (k k' : K) (v : V) (h : k' ≠ k) :
    lookupA (insertA l k v) k' = lookupA l k' := by
  have hne : ¬ k = k' := fun hh => h hh.symm
  induction l with
  | nil => simp [insertA, lookupA, hne]
  | cons hd tl ih =>
    obtain ⟨k0, v0⟩ := hd
    by_cases h0 : k0 = k
    · subst h0
      simp [insertA, lookupA, hne]
    · simp only [insertA, if_neg h0, lookupA]
      by_cases h1 : k0 = k'
      · simp [h1]
      · simp [h1, ih]

theorem lookupA_removeA_ne {K V : Type} [DecidableEq K]
    (l : List (K × V)) (k k' : K) (h : k' ≠ k) :
    lookupA (removeA l k) k' = lookupA l k' := by
  have hne : ¬ k = k' := fun hh => h hh.symm
  induction l with
  | nil => simp [removeA]
  | cons hd tl ih =>
    obtain ⟨k0, v0⟩ := hd
    by_cases h0 : k0 = k
    · subst h0
      simp [removeA, lookupA, hne]
    · simp only [removeA, if_neg h0, lookupA]
      by_cases h1 : k0 = k'
      · simp [h1]
      · simp [h1, ih]

theorem mem_keysA_iff_lookupA {K V : Type} [DecidableEq K]
    (l : List (K × V)) (k : K) :
    k ∈ keysA l ↔ (lookupA l k).isSome := by
  induction l with
  | nil => simp [keysA, lookupA]
  | cons hd tl ih =>
    obtain ⟨k0, v0⟩ := hd
    by_cases h : k0 = k
    · simp [keysA_cons, lookupA, h]
    · have hne : ¬ k = k0 := fun hh => h hh.symm
      simp only [keysA_cons, List.mem_cons, lookupA, if_neg h]
      rw [ih]
      simp [hne]

theorem lookupA_eq_none_of_not_mem {K V : Type} [DecidableEq K]
    {l : List (K × V)} {k : K} (h : k ∉ keysA l) : lookupA l k = none := by
  rcases ho : lookupA l k with _ | v
  · rfl
  · exact absurd ((mem_keysA_iff_lookupA l k).2 (by simp [ho])) h

theorem lookupA_mem {K V : Type} [DecidableEq K]
    {l : List (K × V)} {k : K} {v : V} (h : lookupA l k = some v) :
    (k, v) ∈ l := by
  induction l with
  | nil => simp [lookupA] at h
  | cons hd tl ih =>
    obtain ⟨k0, v0⟩ := hd
    by_cases h0 : k0 = k
    · subst h0
      simp [lookupA] at h
      simp [h]
    · simp only [lookupA, if_neg h0] at h
      exact List.mem_cons_of_mem _ (ih h)

theorem lookupA_of_mem_nodup {K V : Type} [DecidableEq K]
    {l : List (K × V)} {k : K} {v : V} (hn : (keysA l).Nodup)
    (h : (k, v) ∈ l) : lookupA l k = some v := by
  induction l with
  | nil => simp at h
  | cons hd tl ih =>
    obtain ⟨k0, v0⟩ := hd
    rw [keysA_cons, List.nodup_cons] at hn
    rcases List.mem_cons.1 h with h1 | h1
    · rw [Prod.mk.injEq] at h1
      obtain ⟨hk, hv⟩ := h1
      simp [lookupA, hk.symm, hv]
    · have hne : k0 ≠ k := by
        intro hh
        apply hn.1
        rw [hh]
        exact List.mem_map_of_mem Prod.fst h1
      simp only [lookupA, if_neg hne]
      exact ih hn.2 h1

theorem lookupA_removeA_self {K V : Type} [DecidableEq K]
    {l : List (K × V)} (hn : (keysA l).Nodup) (k : K) :
    lookupA (removeA l k) k = none := by
  induction l with
  | nil => simp [removeA, lookupA]
  | cons hd tl ih =>
    obtain ⟨k0, v0⟩ := hd
    simp only [keysA, List.map_cons, List.nodup_cons] at hn
    by_cases h0 : k0 = k
    · subst h0
      simp only [removeA, if_pos rfl]
      exact lookupA_eq_none_of_not_mem hn.1
    · simp only [removeA, if_neg h0, lookupA, if_neg h0]
      exact ih hn.2

theorem mem_keysA_insertA {K V : Type} [DecidableEq K]
    (l : List (K × V)) (k k' : K) (v : V) :
    k' ∈ keysA (insertA l k v) ↔ k' ∈ keysA l ∨ k' = k := by
  induction l with
  | nil => simp [insertA, keysA_cons, keysA_nil, eq_comm]
  | cons hd tl ih =>
    obtain ⟨k0, v0⟩ := hd
    by_cases h0 : k0 = k
    · subst h0
      rw [insertA, if_pos rfl, keysA_cons, keysA_cons]
      simp only [List.mem_cons]
      tauto
    · rw [insertA, if_neg h0, keysA_cons, keysA_cons]
      simp only [List.mem_cons]
      rw [ih]
      tauto

theorem nodup_keysA_insertA {K V : Type} [DecidableEq K]
    {l : List (K × V)} (hn : (keysA l).Nodup) (k : K) (v : V) :
    (keysA (insertA l k v)).Nodup := by
  induction l with
  | nil => simp [insertA, keysA_cons, keysA_nil]
  | cons hd tl ih =>
    obtain ⟨k0, v0⟩ := hd
    rw [keysA_cons, List.nodup_cons] at hn
    by_cases h0 : k0 = k
    · subst h0
      rw [insertA, if_pos rfl, keysA_cons, List.nodup_cons]
      exact hn
    · rw [insertA, if_neg h0, keysA_cons, List.nodup_cons]
      refine ⟨fun hmem => ?_, ih hn.2⟩
      rcases (mem_keysA_insertA tl k k0 v).1 hmem with h1 | h1
      · exact hn.1 h1
      · exact h0 h1

theorem keysA_removeA_sublist {K V : Type} [DecidableEq K]
    (l : List (K × V)) (k : K) : (keysA (removeA l k)).Sublist (keysA l) := by
  induction l with
  | nil => simp [removeA, keysA_nil]
  | cons hd tl ih =>
    obtain ⟨k0, v0⟩ := hd
    by_cases h0 : k0 = k
    · rw [removeA, if_pos h0, keysA_cons]
      exact List.Sublist.cons _ (List.Sublist.refl _)
    · rw [removeA, if_neg h0, keysA_cons, keysA_cons]
      exact List.Sublist.cons₂ _ ih

theorem nodup_keysA_removeA {K V : Type} [DecidableEq K]
    {l : List (K × V)} (hn : (keysA l).Nodup) (k : K) :
    (keysA (removeA l k)).Nodup :=
  (keysA_removeA_sublist l k).nodup hn

theorem bucketL_cons_self {K I : Type} [DecidableEq K]
    (k : K) (v : List I) (rest : List (K × List I)) :
    bucketL ((k, v) :: rest) k = v := by
  rw [bucketL, lookupA, if_pos rfl]
  rfl

theorem bucketL_cons_ne {K I : Type} [DecidableEq K]
    (k0 k : K) (v : List I) (rest : List (K × List I)) (h : k0 ≠ k) :
    bucketL ((k0, v) :: rest) k = bucketL rest k := by
  rw [bucketL, lookupA, if_neg h]
  rfl

theorem bucketL_pushEntry_self {K I : Type} [DecidableEq K]
    (l : List (K × List I)) (k : K) (i : I) :
    bucketL (pushEntry l k i) k = bucketL l k ++ [i] := by
  induction l with
  | nil => simp [pushEntry, bucketL, lookupA]
  | cons hd tl ih =>
    obtain ⟨k0, v0⟩ := hd
    by_cases h : k0 = k
    · simp [pushEntry, h, bucketL, lookupA]
    · simp only [pushEntry, if_neg h, bucketL, lookupA, if_neg h]
      exact ih

theorem bucketL_pushEntry_ne {K I : Type} [DecidableEq K]
    (l : List (K × List I)) (k k' : K) (i : I) (h : k' ≠ k) :
    bucketL (pushEntry l k i) k' = bucketL l k' := by
  have hne : ¬ k = k' := fun hh => h hh.symm
  induction l with
  | nil => simp [pushEntry, bucketL, lookupA, hne]
  | cons hd tl ih =>
    obtain ⟨k0, v0⟩ := hd
    by_cases h0 : k0 = k
    · subst h0
      simp [pushEntry, bucketL, lookupA, hne]
    · simp only [pushEntry, if_neg h0, bucketL, lookupA]
      by_cases h1 : k0 = k'
      · simp [h1]
      · simp only [if_neg h1]
        exact ih

theorem mem_keysA_pushEntry {K I : Type} [DecidableEq K]
    (l : List (K × List I)) (k k' : K) (i : I) :
    k' ∈ keysA (pushEntry l k i) ↔ k' ∈ keysA l ∨ k' = k := by
  induction l with
  | nil => simp [pushEntry, keysA_cons, keysA_nil, eq_comm]
  | cons hd tl ih =>
    obtain ⟨k0, v0⟩ := hd
    by_cases h0 : k0 = k
    · rw [pushEntry, if_pos h0, keysA_cons, keysA_cons]
      simp only [List.mem_cons]
      subst h0
      tauto
    · rw [pushEntry, if_neg h0, keysA_cons, keysA_cons]
      simp only [List.mem_cons]
      rw [ih]
      tauto

theorem nodup_keysA_pushEntry {K I : Type} [DecidableEq K]
    {l : List (K × List I)} (hn : (keysA l).Nodup) (k : K) (i : I) :
    (keysA (pushEntry l k i)).Nodup := by
  induction l with
  | nil => simp [pushEntry, keysA_cons, keysA_nil]
  | cons hd tl ih =>
    obtain ⟨k0, v0⟩ := hd
    rw [keysA_cons, List.nodup_cons] at hn
    by_cases h0 : k0 = k
    · rw [pushEntry, if_pos h0, keysA_cons, List.nodup_cons]
      exact hn
    · rw [pushEntry, if_neg h0, keysA_cons, List.nodup_cons]
      refine ⟨fun hmem => ?_, ih hn.2⟩
      rcases (mem_keysA_pushEntry tl k k0 i).1 hmem with h1 | h1
      · exact hn.1 h1
      · exact h0 h1

theorem noEmpty_pushEntry {K I : Type} [DecidableEq K]
    {l : List (K × List I)} (h : ∀ kv ∈ l, kv.2 ≠ []) (k : K) (i : I) :
    ∀ kv ∈ pushEntry l k i, kv.2 ≠ [] := by
  induction l with
  | nil =>
    intro kv hkv
    simp only [pushEntry, List.mem_singleton] at hkv
    subst hkv
    simp
  | cons hd tl ih =>
    obtain ⟨k0, v0⟩ := hd
    intro kv hkv
    by_cases h0 : k0 = k
    · rw [pushEntry, if_pos h0] at hkv
      rcases List.mem_cons.1 hkv with h1 | h1
      · subst h1
        simp
      · exact h kv (List.mem_cons_of_mem _ h1)
    · rw [pushEntry, if_neg h0] at hkv
      rcases List.mem_cons.1 hkv with h1 | h1
      · subst h1
        exact h (k0, v0) (List.mem_cons_self _ _)
      · exact ih (fun kv' hkv' => h kv' (List.mem_cons_of_mem _ hkv')) kv h1

/-! ## Lemmas about the index-maintenance helpers -/

theorem bucketL_iii (sig : ModelSig M ι) (m : M)
    (ds : List (IndexDefinition M)) (ind : List ((Str × Str) × List ι))
    (k : Str × Str) :
    bucketL (insert_indices_inner sig m ds ind) k
      = bucketL ind k
        ++ List.replicate (ds.countP (fun d => decide (keyOf d m = k))) (sig.id m) := by
  induction ds generalizing ind with
  | nil => simp [insert_indices_inner]
  | cons d ds ih =>
    rw [insert_indices_inner, ih, List.countP_cons]
    by_cases h : keyOf d m = k
    · have h1 : (if (fun d => decide (keyOf d m = k)) d = true then 1 else 0) = 1 := by
        simp [h]
      rw [h1, h, bucketL_pushEntry_self, List.append_assoc, List.singleton_append,
        ← List.replicate_succ]
    · rw [bucketL_pushEntry_ne _ _ _ _ (fun hh => h hh.symm)]
      simp [h]

theorem nodup_keysA_iii (sig : ModelSig M ι) (m : M)
    (ds : List (IndexDefinition M)) {ind : List ((Str × Str) × List ι)}
    (hn : (keysA ind).Nodup) :
    (keysA (insert_indices_inner sig m ds ind)).Nodup := by
  induction ds generalizing ind with
  | nil => exact hn
  | cons d ds ih =>
    rw [insert_indices_inner]
    exact ih (nodup_keysA_pushEntry hn _ _)

theorem noEmpty_iii (sig : ModelSig M ι) (m : M)
    (ds : List (IndexDefinition M)) {ind : List ((Str × Str) × List ι)}
    (h : ∀ kv ∈ ind, kv.2 ≠ []) :
    ∀ kv ∈ insert_indices_inner sig m ds ind, kv.2 ≠ [] := by
  induction ds generalizing ind with
  | nil => exact h
  | cons d ds ih =>
    rw [insert_indices_inner]
    exact ih (noEmpty_pushEntry h _ _)

theorem keysA_dii_sublist (ind : List ((Str × Str) × List ι)) (i : ι) :
    (keysA (delete_indices_inner ind i)).Sublist (keysA ind) := by
  induction ind with
  | nil => simp [delete_indices_inner, keysA_nil]
  | cons kv rest ih =>
    rw [delete_indices_inner, List.filterMap_cons]
    rcases h : (if (kv.2.filter (fun rid => decide (rid ≠ i))).isEmpty then none
        else some (kv.1, kv.2.filter (fun rid => decide (rid ≠ i)))) with _ | kv'
    · rw [keysA_cons kv.1 kv.2] at *
      exact (ih.trans (List.Sublist.cons _ (List.Sublist.refl _)))
    · have hkv' : kv'.1 = kv.1 := by
        by_cases hc : (kv.2.filter (fun rid => decide (rid ≠ i))).isEmpty
        · rw [if_pos hc] at h
          cases h
        · rw [if_neg hc] at h
          cases h
          rfl
      obtain ⟨k1, v1⟩ := kv'
      obtain ⟨k0, v0⟩ := kv
      rw [keysA_cons, keysA_cons]
      rw [show k1 = k0 from hkv']
      exact List.Sublist.cons₂ _ ih

theorem noEmpty_dii (ind : List ((Str × Str) × List ι)) (i : ι) :
    ∀ kv ∈ delete_indices_inner ind i, kv.2 ≠ [] := by
  intro kv hkv
  rw [delete_indices_inner, List.mem_filterMap] at hkv
  obtain ⟨a, _, ha⟩ := hkv
  by_cases hc : (a.2.filter (fun rid => decide (rid ≠ i))).isEmpty
  · rw [if_pos hc] at ha
    cases ha
  · rw [if_neg hc] at ha
    cases ha
    intro hnil
    exact hc (List.isEmpty_iff.2 hnil)

theorem mem_dii_ne (ind : List ((Str × Str) × List ι)) (i : ι) :
    ∀ kv ∈ delete_indices_inner ind i, ∀ r ∈ kv.2, r ≠ i := by
  intro kv hkv r hr
  rw [delete_indices_inner, List.mem_filterMap] at hkv
  obtain ⟨a, _, ha⟩ := hkv
  by_cases hc : (a.2.filter (fun rid => decide (rid ≠ i))).isEmpty
  · rw [if_pos hc] at ha
    cases ha
  · rw [if_neg hc] at ha
    cases ha
    have := List.of_mem_filter hr
    simpa using this

theorem bucketL_dii {ind : List ((Str × Str) × List ι)}
    (hn : (keysA ind).Nodup) (i : ι) (k : Str × Str) :
    bucketL (delete_indices_inner ind i) k
      = (bucketL ind k).filter (fun r => decide (r ≠ i)) := by
  induction ind with
  | nil => simp [delete_indices_inner, bucketL, lookupA]
  | cons kv rest ih =>
    obtain ⟨k0, v0⟩ := kv
    rw [keysA_cons, List.nodup_cons] at hn
    have hrest : (rest.filterMap (fun kv =>
        if (kv.2.filter (fun rid => decide (rid ≠ i))).isEmpty then none
        else some (kv.1, kv.2.filter (fun rid => decide (rid ≠ i))))) =
        delete_indices_inner rest i := rfl
    rw [delete_indices_inner, List.filterMap_cons]
    by_cases hc : ((v0 : List ι).filter (fun rid => decide (rid ≠ i))).isEmpty
    · simp only [if_pos hc, hrest]
      by_cases hk : k0 = k
      · subst hk
        have h1 : k0 ∉ keysA (delete_indices_inner rest i) :=
          fun hmem => hn.1 ((keysA_dii_sublist rest i).mem hmem)
        rw [bucketL, lookupA_eq_none_of_not_mem h1, bucketL_cons_self]
        exact (List.isEmpty_iff.1 hc).symm
      · rw [ih hn.2, bucketL_cons_ne _ _ _ _ hk]
    · simp only [if_neg hc, hrest]
      by_cases hk : k0 = k
      · subst hk
        rw [bucketL_cons_self, bucketL_cons_self]
      · rw [bucketL_cons_ne _ _ _ _ hk, bucketL_cons_ne _ _ _ _ hk]
        exact ih hn.2

/-! ## Characterization of `check_unique_violations` -/

theorem checkUV_eq_none_iff (sig : ModelSig M ι) (st : Inner M ι) (m : M)
    (excl : Option ι) (ds : List (IndexDefinition M)) :
    check_unique_violations sig st m excl ds = none ↔
      ∀ d ∈ ds, d.unique = true →
        ∀ e ∈ bucketL st.indices (keyOf d m), some e = excl := by
  induction ds with
  | nil => simp [check_unique_violations]
  | cons d ds ih =>
    rw [check_unique_violations]
    by_cases hu : d.unique = true
    · rw [if_pos hu]
      split
      · rename_i ids hl
        have hb : bucketL st.indices (keyOf d m) = ids := by
          rw [bucketL, keyOf, hl]
          rfl
        by_cases ha : ids.any (fun e => decide (some e ≠ excl)) = true
        · rw [if_pos ha]
          obtain ⟨e, he, hne⟩ := List.any_eq_true.1 ha
          apply iff_of_false
          · simp
          · intro h
            exact (of_decide_eq_true hne)
              (h d (List.mem_cons_self _ _) hu e (by rw [hb]; exact he))
        · rw [if_neg ha]
          have hall : ∀ e ∈ ids, some e = excl := by
            intro e he
            by_contra hne
            exact ha (List.any_eq_true.2 ⟨e, he, by simpa using hne⟩)
          rw [ih, List.forall_mem_cons]
          constructor
          · intro h
            exact ⟨fun _ e he => hall e (by rwa [hb] at he), h⟩
          · intro h
            exact h.2
      · rename_i hl
        have hb : bucketL st.indices (keyOf d m) = [] := by
          rw [bucketL, keyOf, hl]
          rfl
        rw [ih, List.forall_mem_cons]
        simp [hb]
    · rw [if_neg hu, ih, List.forall_mem_cons]
      constructor
      · intro h
        exact ⟨fun hu' => absurd hu' hu, h⟩
      · intro h
        exact h.2

/-! ## Shape of the mutating operations -/

theorem insertOp_error_state (sig : ModelSig M ι) (st : Inner M ι) (m : M)
    (h : (insertOp sig st m).1.isSome) : (insertOp sig st m).2 = st := by
  by_cases h1 : (lookupA st.data (sig.id m)).isSome
  · simp [insertOp, h1]
  · rcases h2 : check_unique_violations sig st m none sig.defs with _ | e
    · exfalso
      simp [insertOp, h1, h2] at h
    · simp [insertOp, h1, h2]

theorem insertOp_error_iff (sig : ModelSig M ι) (st : Inner M ι) (m : M) :
    (insertOp sig st m).1.isSome ↔
      (lookupA st.data (sig.id m)).isSome = true ∨
        check_unique_violations sig st m none sig.defs ≠ none := by
  by_cases h1 : (lookupA st.data (sig.id m)).isSome
  · simp [insertOp, h1]
  · rcases h2 : check_unique_violations sig st m none sig.defs with _ | e
    · simp [insertOp, h1, h2]
    · simp [insertOp, h1, h2]

theorem insertOp_success {sig : ModelSig M ι} {st st' : Inner M ι} {m : M}
    (h : insertOp sig st m = (none, st')) :
    lookupA st.data (sig.id m) = none ∧
    check_unique_violations sig st m none sig.defs = none ∧
    st' = { st with data := insertA st.data (sig.id m) m,
                    indices := insert_indices_inner sig m sig.defs st.indices } := by
  by_cases h1 : (lookupA st.data (sig.id m)).isSome
  · simp [insertOp, h1] at h
  · rcases h2 : check_unique_violations sig st m none sig.defs with _ | e
    · simp only [insertOp, h1, if_neg (by simp [h1] : ¬ (lookupA st.data (sig.id m)).isSome = true), h2] at h
      rw [Prod.mk.injEq] at h
      exact ⟨Option.not_isSome_iff_eq_none.1 h1, rfl, h.2.symm⟩
    · simp [insertOp, h1, h2] at h

theorem updateOp_error_state (sig : ModelSig M ι) (st : Inner M ι) (m : M)
    (h : (updateOp sig st m).1.isSome) : (updateOp sig st m).2 = st := by
  by_cases h1 : (lookupA st.data (sig.id m)).isSome
  · rcases h2 : check_unique_violations sig st m (some (sig.id m)) sig.defs with _ | e
    · exfalso
      simp [updateOp, h1, h2] at h
    · simp [updateOp, h1, h2]
  · simp [updateOp, h1]

theorem updateOp_success {sig : ModelSig M ι} {st st' : Inner M ι} {m : M}
    (h : updateOp sig st m = (none, st')) :
    (lookupA st.data (sig.id m)).isSome ∧
    check_unique_violations sig st m (some (sig.id m)) sig.defs = none ∧
    st' = { st with
            data := insertA st.data (sig.id m) m,
            indices := insert_indices_inner sig m sig.defs
              (delete_indices_inner st.indices (sig.id m)) } := by
  by_cases h1 : (lookupA st.data (sig.id m)).isSome
  · rcases h2 : check_unique_violations sig st m (some (sig.id m)) sig.defs with _ | e
    · simp only [updateOp, if_pos h1, h2] at h
      rw [Prod.mk.injEq] at h
      exact ⟨h1, rfl, h.2.symm⟩
    · simp [updateOp, h1, h2] at h
  · simp [updateOp, h1] at h

theorem updateOp_notfound {sig : ModelSig M ι} {st : Inner M ι} {m : M}
    (h : lookupA st.data (sig.id m) = none) :
    updateOp sig st m = (some (DatabaseError.NotFound (sig.idStr (sig.id m))), st) := by
  simp [updateOp, h]

theorem deleteOp_error_state (sig : ModelSig M ι) (st : Inner M ι) (i : ι)
    (h : (deleteOp sig st i).1.isSome) : (deleteOp sig st i).2 = st := by
  by_cases h1 : (lookupA st.data i).isSome
  · exfalso
    simp [deleteOp, h1] at h
  · simp [deleteOp, h1]

theorem deleteOp_success {sig : ModelSig M ι} {st st' : Inner M ι} {i : ι}
    (h : deleteOp sig st i = (none, st')) :
    (lookupA st.data i).isSome ∧
    st' = { st with data := removeA st.data i,
                    indices := delete_indices_inner st.indices i } := by
  by_cases h1 : (lookupA st.data i).isSome
  · simp only [deleteOp, if_pos h1] at h
    rw [Prod.mk.injEq] at h
    exact ⟨h1, h.2.symm⟩
  · simp [deleteOp, h1] at h

/-! ## Counting helpers -/

theorem count_filter_ne_self (l : List ι) (i : ι) :
    List.count i (l.filter (fun r => decide (r ≠ i))) = 0 := by
  rw [List.count_eq_zero]
  intro hmem
  have := List.of_mem_filter hmem
  simp at this

theorem count_filter_ne_other (l : List ι) {j i : ι} (h : j ≠ i) :
    List.count j (l.filter (fun r => decide (r ≠ i))) = List.count j l :=
  List.count_filter (by simpa using h)

theorem countP_names_eq {l : List (IndexDefinition M)}
    (hl : (l.map IndexDefinition.name).Nodup) {d : IndexDefinition M}
    (hd : d ∈ l) (p : IndexDefinition M → Bool)
    (hp : ∀ d' ∈ l, p d' = true → d'.name = d.name) :
    l.countP p = if p d then 1 else 0 := by
  induction l with
  | nil => cases hd
  | cons x xs ih =>
    rw [List.map_cons, List.nodup_cons] at hl
    rw [List.countP_cons]
    rcases List.mem_cons.1 hd with rfl | hd'
    · have hxs : xs.countP p = 0 := by
        rw [List.countP_eq_zero]
        intro d' hd' hp'
        apply hl.1
        rw [← hp d' (List.mem_cons_of_mem _ hd') hp']
        exact List.mem_map_of_mem _ hd'
      rw [hxs]
      simp
    · have hx : p x = false := by
        by_contra hpx
        rw [Bool.not_eq_false] at hpx
        apply hl.1
        rw [hp x (List.mem_cons_self _ _) hpx]
        exact List.mem_map_of_mem _ hd'
      rw [hx]
      rw [ih hl.2 hd' (fun d' hd'' hp'' => hp d' (List.mem_cons_of_mem _ hd'') hp'')]
      simp

/-! ## `defMatches` rewriting -/

theorem defMatches_of_some {st : Inner M ι} {i : ι} {m : M}
    (h : lookupA st.data i = some m) (k : Str × Str) (d : IndexDefinition M) :
    defMatches st i k d = decide (keyOf d m = k) := by
  simp [defMatches, h]

theorem defMatches_of_none {st : Inner M ι} {i : ι}
    (h : lookupA st.data i = none) (k : Str × Str) (d : IndexDefinition M) :
    defMatches st i k d = false := by
  simp [defMatches, h]

theorem defMatches_eq_of_lookup_eq {st st' : Inner M ι} {i : ι}
    (h : lookupA st'.data i = lookupA st.data i) (k : Str × Str)
    (d : IndexDefinition M) : defMatches st' i k d = defMatches st i k d := by
  rcases hl : lookupA st.data i with _ | m
  · rw [defMatches_of_none (h.trans hl), defMatches_of_none hl]
  · rw [defMatches_of_some (h.trans hl), defMatches_of_some hl]

theorem bucket_nil_of_checkUV_none {sig : ModelSig M ι} {st : Inner M ι}
    {m : M} (hUV : check_unique_violations sig st m none sig.defs = none)
    {d : IndexDefinition M} (hd : d ∈ sig.defs) (hu : d.unique = true) :
    bucketL st.indices (keyOf d m) = [] := by
  have h := (checkUV_eq_none_iff sig st m none sig.defs).1 hUV d hd hu
  rw [List.eq_nil_iff_forall_not_mem]
  intro e he
  simpa using h e he

theorem bucket_all_eq_of_checkUV_excl {sig : ModelSig M ι} {st : Inner M ι}
    {m : M} {j : ι}
    (hUV : check_unique_violations sig st m (some j) sig.defs = none)
    {d : IndexDefinition M} (hd : d ∈ sig.defs) (hu : d.unique = true) :
    ∀ e ∈ bucketL st.indices (keyOf d m), e = j := by
  intro e he
  have h := (checkUV_eq_none_iff sig st m (some j) sig.defs).1 hUV d hd hu e he
  exact Option.some.inj h

theorem filter_ne_eq_nil_of_all_eq {l : List ι} {i : ι} (h : ∀ e ∈ l, e = i) :
    l.filter (fun r => decide (r ≠ i)) = [] := by
  rw [List.filter_eq_nil_iff]
  intro a ha
  simpa using h a ha

/-! ## Preservation of the master invariant -/

theorem minv_empty (sig : ModelSig M ι) : MInv sig (emptyInner M ι) := by
  refine ⟨?_, ?_, ?_, ?_, ?_, ?_⟩
  · simp [emptyInner, keysA_nil]
  · simp [emptyInner, keysA_nil]
  · intro i m h
    simp [emptyInner, lookupA] at h
  · intro kv hkv
    simp [emptyInner] at hkv
  · intro k i
    have h1 : bucket (emptyInner M ι) k = [] := rfl
    rw [h1]
    have h2 : ∀ d ∈ sig.defs, defMatches (emptyInner M ι) i k d = false := by
      intro d _
      have hl : lookupA (emptyInner M ι).data i = none := rfl
      exact defMatches_of_none hl k d
    rw [List.count_nil]
    exact (List.countP_eq_zero.2 (by intro a ha; rw [h2 a ha]; simp)).symm
  · intro d _ _ s
    have h1 : bucket (emptyInner M ι) (d.name, s) = [] := rfl
    rw [h1]
    simp

theorem minv_insert {sig : ModelSig M ι} {st : Inner M ι}
    (hnames : namesNodup sig) (hInv : MInv sig st) (m : M) :
    MInv sig (insertOp sig st m).2 := by
  rcases hres : (insertOp sig st m).1 with _ | e
  case some =>
    rw [insertOp_error_state sig st m (by rw [hres]; rfl)]
    exact hInv
  case none =>
    have hsucc : insertOp sig st m = (none, (insertOp sig st m).2) := by
      rw [← hres]
    obtain ⟨hnotin, hUV, hst⟩ := insertOp_success hsucc
    rw [hst]
    have hdata : (insertA st.data (sig.id m) m) =
        ({ st with data := insertA st.data (sig.id m) m,
                   indices := insert_indices_inner sig m sig.defs st.indices } :
          Inner M ι).data := rfl
    refine ⟨?_, ?_, ?_, ?_, ?_, ?_⟩
    · exact nodup_keysA_insertA hInv.dataNodup _ _
    · exact nodup_keysA_iii sig m sig.defs hInv.indNodup
    · intro i' m' h
      rw [← hdata] at h
      by_cases hi : i' = sig.id m
      · subst hi
        rw [lookupA_insertA_self] at h
        cases h
        rfl
      · rw [lookupA_insertA_ne _ _ _ _ hi] at h
        exact hInv.dataWF _ _ h
    · exact noEmpty_iii sig m sig.defs hInv.noEmpty
    · intro k i'
      simp only [bucket]
      rw [bucketL_iii, List.count_append, List.count_replicate]
      by_cases hi : i' = sig.id m
      · rw [hi]
        have h0 : List.count (sig.id m) (bucketL st.indices k) = 0 := by
          have hc := hInv.countChar k (sig.id m)
          rw [bucket] at hc
          rw [hc]
          exact List.countP_eq_zero.2
            (fun d _ => by rw [defMatches_of_none hnotin]; simp)
        rw [h0]
        simp only [beq_self_eq_true, if_true, Nat.zero_add]
        have hlk : lookupA ({ st with
            data := insertA st.data (sig.id m) m,
            indices := insert_indices_inner sig m sig.defs st.indices } :
            Inner M ι).data (sig.id m) = some m :=
          lookupA_insertA_self st.data (sig.id m) m
        refine (List.countP_congr ?_).symm
        intro d _
        rw [defMatches_of_some hlk]
      · have hb : ((sig.id m) == i') = false := by
          rw [beq_eq_false_iff_ne]
          exact fun hh => hi hh.symm
        have h1 : (if ((sig.id m) == i') = true
            then List.countP (fun d => decide (keyOf d m = k)) sig.defs
            else 0) = 0 := by
          rw [hb]
          simp
        rw [h1, Nat.add_zero]
        have hc := hInv.countChar k i'
        rw [bucket] at hc
        rw [hc]
        have hlk : lookupA ({ st with
            data := insertA st.data (sig.id m) m,
            indices := insert_indices_inner sig m sig.defs st.indices } :
            Inner M ι).data i' = lookupA st.data i' :=
          lookupA_insertA_ne st.data (sig.id m) i' m hi
        refine (List.countP_congr ?_).symm
        intro d _
        rw [defMatches_eq_of_lookup_eq hlk k d]
    · intro d hd hu s
      simp only [bucket]
      rw [bucketL_iii, List.length_append, List.length_replicate]
      have hcount := countP_names_eq hnames hd
        (fun d' => decide (keyOf d' m = (d.name, s)))
        (fun d' _ hp' => congrArg Prod.fst (of_decide_eq_true hp'))
      rw [hcount]
      by_cases hpd : decide (keyOf d m = (d.name, s)) = true
      · rw [if_pos hpd]
        have hkey : keyOf d m = (d.name, s) := of_decide_eq_true hpd
        have hnil : bucketL st.indices (d.name, s) = [] := by
          rw [← hkey]
          exact bucket_nil_of_checkUV_none hUV hd hu
        rw [hnil]
        simp
      · rw [if_neg hpd]
        have := hInv.uniqueLen d hd hu s
        rw [bucket] at this
        omega

theorem minv_update {sig : ModelSig M ι} {st : Inner M ι}
    (hnames : namesNodup sig) (hInv : MInv sig st) (m : M) :
    MInv sig (updateOp sig st m).2 := by
  rcases hres : (updateOp sig st m).1 with _ | e
  case some =>
    rw [updateOp_error_state sig st m (by rw [hres]; rfl)]
    exact hInv
  case none =>
    have hsucc : updateOp sig st m = (none, (updateOp sig st m).2) := by
      rw [← hres]
    obtain ⟨hin, hUV, hst⟩ := updateOp_success hsucc
    rw [hst]
    have hDn : (keysA (delete_indices_inner st.indices (sig.id m))).Nodup :=
      (keysA_dii_sublist _ _).nodup hInv.indNodup
    have hdata : insertA st.data (sig.id m) m = ({ st with
        data := insertA st.data (sig.id m) m,
        indices := insert_indices_inner sig m sig.defs
          (delete_indices_inner st.indices (sig.id m)) } : Inner M ι).data := rfl
    refine ⟨?_, ?_, ?_, ?_, ?_, ?_⟩
    · exact nodup_keysA_insertA hInv.dataNodup _ _
    · exact nodup_keysA_iii sig m sig.defs hDn
    · intro i' m' h
      rw [← hdata] at h
      by_cases hi : i' = sig.id m
      · rw [hi] at h ⊢
        rw [lookupA_insertA_self] at h
        cases h
        rfl
      · rw [lookupA_insertA_ne _ _ _ _ hi] at h
        exact hInv.dataWF _ _ h
    · exact noEmpty_iii sig m sig.defs (noEmpty_dii st.indices (sig.id m))
    · intro k i'
      simp only [bucket]
      rw [bucketL_iii, List.count_append, List.count_replicate,
        bucketL_dii hInv.indNodup]
      by_cases hi : i' = sig.id m
      · rw [hi]
        rw [count_filter_ne_self]
        simp only [beq_self_eq_true, if_true, Nat.zero_add]
        have hlk : lookupA ({ st with
            data := insertA st.data (sig.id m) m,
            indices := insert_indices_inner sig m sig.defs
              (delete_indices_inner st.indices (sig.id m)) } :
            Inner M ι).data (sig.id m) = some m :=
          lookupA_insertA_self st.data (sig.id m) m
        refine (List.countP_congr ?_).symm
        intro d _
        rw [defMatches_of_some hlk]
      · rw [count_filter_ne_other _ hi]
        have hb : ((sig.id m) == i') = false := by
          rw [beq_eq_false_iff_ne]
          exact fun hh => hi hh.symm
        have h1 : (if ((sig.id m) == i') = true
            then List.countP (fun d => decide (keyOf d m = k)) sig.defs
            else 0) = 0 := by
          rw [hb]
          simp
        rw [h1, Nat.add_zero]
        have hc := hInv.countChar k i'
        rw [bucket] at hc
        rw [hc]
        have hlk : lookupA ({ st with
            data := insertA st.data (sig.id m) m,
            indices := insert_indices_inner sig m sig.defs
              (delete_indices_inner st.indices (sig.id m)) } :
            Inner M ι).data i' = lookupA st.data i' :=
          lookupA_insertA_ne st.data (sig.id m) i' m hi
        refine (List.countP_congr ?_).symm
        intro d _
        rw [defMatches_eq_of_lookup_eq hlk k d]
    · intro d hd hu s
      simp only [bucket]
      rw [bucketL_iii, List.length_append, List.length_replicate,
        bucketL_dii hInv.indNodup]
      have hcount := countP_names_eq hnames hd
        (fun d' => decide (keyOf d' m = (d.name, s)))
        (fun d' _ hp' => congrArg Prod.fst (of_decide_eq_true hp'))
      rw [hcount]
      by_cases hpd : decide (keyOf d m = (d.name, s)) = true
      · rw [if_pos hpd]
        have hkey : keyOf d m = (d.name, s) := of_decide_eq_true hpd
        have hnil : (bucketL st.indices (d.name, s)).filter
            (fun r => decide (r ≠ sig.id m)) = [] := by
          rw [← hkey]
          exact filter_ne_eq_nil_of_all_eq (bucket_all_eq_of_checkUV_excl hUV hd hu)
        rw [hnil]
        simp
      · rw [if_neg hpd]
        have h2 := hInv.uniqueLen d hd hu s
        rw [bucket] at h2
        have h3 := List.length_filter_le (fun r => decide (r ≠ sig.id m))
          (bucketL st.indices (d.name, s))
        omega

theorem minv_delete {sig : ModelSig M ι} {st : Inner M ι}
    (hInv : MInv sig st) (i : ι) : MInv sig (deleteOp sig st i).2 := by
  rcases hres : (deleteOp sig st i).1 with _ | e
  case some =>
    rw [deleteOp_error_state sig st i (by rw [hres]; rfl)]
    exact hInv
  case none =>
    have hsucc : deleteOp sig st i = (none, (deleteOp sig st i).2) := by
      rw [← hres]
    obtain ⟨hin, hst⟩ := deleteOp_success hsucc
    rw [hst]
    have hdata : removeA st.data i = ({ st with
        data := removeA st.data i,
        indices := delete_indices_inner st.indices i } : Inner M ι).data := rfl
    refine ⟨?_, ?_, ?_, ?_, ?_, ?_⟩
    · exact nodup_keysA_removeA hInv.dataNodup i
    · exact (keysA_dii_sublist _ _).nodup hInv.indNodup
    · intro i' m' h
      rw [← hdata] at h
      by_cases hi : i' = i
      · rw [hi] at h
        rw [lookupA_removeA_self hInv.dataNodup] at h
        cases h
      · rw [lookupA_removeA_ne _ _ _ hi] at h
        exact hInv.dataWF _ _ h
    · exact noEmpty_dii st.indices i
    · intro k i'
      simp only [bucket]
      rw [bucketL_dii hInv.indNodup]
      by_cases hi : i' = i
      · rw [hi, count_filter_ne_self]
        symm
        apply List.countP_eq_zero.2
        intro d _
        have hlo : lookupA ({ st with
            data := removeA st.data i,
            indices := delete_indices_inner st.indices i } :
            Inner M ι).data i = none :=
          lookupA_removeA_self hInv.dataNodup i
        rw [defMatches_of_none hlo]
        simp
      · rw [count_filter_ne_other _ hi]
        have hc := hInv.countChar k i'
        rw [bucket] at hc
        rw [hc]
        have hlk : lookupA ({ st with
            data := removeA st.data i,
            indices := delete_indices_inner st.indices i } :
            Inner M ι).data i' = lookupA st.data i' :=
          lookupA_removeA_ne st.data i i' hi
        refine (List.countP_congr ?_).symm
        intro d _
        rw [defMatches_eq_of_lookup_eq hlk k d]
    · intro d hd hu s
      simp only [bucket]
      rw [bucketL_dii hInv.indNodup]
      have h2 := hInv.uniqueLen d hd hu s
      rw [bucket] at h2
      exact le_trans (List.length_filter_le _ _) h2

theorem minv_applyOp {sig : ModelSig M ι} {st : Inner M ι}
    (hnames : namesNodup sig) (hInv : MInv sig st) (op : Op M ι) :
    MInv sig (applyOp sig st op) := by
  cases op with
  | ins m => exact minv_insert hnames hInv m
  | upd m => exact minv_update hnames hInv m
  | del i => exact minv_delete hInv i

theorem minv_reachable {sig : ModelSig M ι} {st : Inner M ι}
    (hnames : namesNodup sig) (hR : Reachable sig st) : MInv sig st := by
  induction hR with
  | empty => exact minv_empty sig
  | step st' op _ ih => exact minv_applyOp hnames ih op

/-! ## Injectivity of the composite-key encoding -/

theorem char_toNat_inj {c c' : Char} (h : c.toNat = c'.toNat) : c = c' :=
  Char.ext (UInt32.ext h)

theorem hexDigit_inj_fin :
    ∀ a b : Fin 16, hexDigit a.val = hexDigit b.val → a = b := by decide

theorem toNat_ofNat_lt {t : Nat} (h : t < 32) : (Char.ofNat t).toNat = t := by
  unfold Char.ofNat Char.toNat
  rw [dif_pos (by constructor; omega)]
  rfl

theorem hexVal_hexDigit_fin : ∀ a : Fin 16, hexVal (hexDigit a.val) = a.val := by
  decide

theorem hexVal_hexDigit {n : Nat} (h : n < 16) : hexVal (hexDigit n) = n :=
  hexVal_hexDigit_fin ⟨n, h⟩

theorem unescChar_escChar (c : Char) (x : Str) :
    unescChar (escChar c ++ x) = some (c, x) := by
  rw [escChar]
  split_ifs with h1 h2 h3 h4 h5 h6 h7 h8
  · subst h1
    rfl
  · subst h2
    rfl
  · have hc : Char.ofNat 8 = c :=
      char_toNat_inj (by rw [toNat_ofNat_lt (by omega), h3])
    show unescChar (bsl :: 'b' :: x) = some (c, x)
    rw [← hc]
    rfl
  · have hc : Char.ofNat 9 = c :=
      char_toNat_inj (by rw [toNat_ofNat_lt (by omega), h4])
    show unescChar (bsl :: 't' :: x) = some (c, x)
    rw [← hc]
    rfl
  · have hc : Char.ofNat 10 = c :=
      char_toNat_inj (by rw [toNat_ofNat_lt (by omega), h5])
    show unescChar (bsl :: 'n' :: x) = some (c, x)
    rw [← hc]
    rfl
  · have hc : Char.ofNat 12 = c :=
      char_toNat_inj (by rw [toNat_ofNat_lt (by omega), h6])
    show unescChar (bsl :: 'f' :: x) = some (c, x)
    rw [← hc]
    rfl
  · have hc : Char.ofNat 13 = c :=
      char_toNat_inj (by rw [toNat_ofNat_lt (by omega), h7])
    show unescChar (bsl :: 'r' :: x) = some (c, x)
    rw [← hc]
    rfl
  · show unescChar (bsl :: 'u' :: '0' :: '0' ::
        hexDigit (c.toNat / 16) :: hexDigit (c.toNat % 16) :: x) = some (c, x)
    have hstep : unescChar (bsl :: 'u' :: '0' :: '0' ::
        hexDigit (c.toNat / 16) :: hexDigit (c.toNat % 16) :: x) =
        some (Char.ofNat (hexVal (hexDigit (c.toNat / 16)) * 16 +
          hexVal (hexDigit (c.toNat % 16))), x) := rfl
    rw [hstep, hexVal_hexDigit (by omega), hexVal_hexDigit (by omega)]
    have harith : c.toNat / 16 * 16 + c.toNat % 16 = c.toNat := by omega
    rw [harith, Char.ofNat_toNat]
  · show unescChar (c :: x) = some (c, x)
    rw [unescChar.eq_def]
    simp only [if_neg h2]

theorem escChar_cancel {c1 c2 : Char} {x1 x2 : Str}
    (h : escChar c1 ++ x1 = escChar c2 ++ x2) : c1 = c2 ∧ x1 = x2 := by
  have h1 := unescChar_escChar c1 x1
  rw [h, unescChar_escChar c2 x2] at h1
  have h2 := Option.some.inj h1
  exact ⟨(congrArg Prod.fst h2).symm, (congrArg Prod.snd h2).symm⟩

theorem escChar_append_ne_quot_cons (c : Char) (x y : Str) :
    escChar c ++ x ≠ quot :: y := by
  intro h
  have h1 := unescChar_escChar c x
  rw [h] at h1
  have h2 : unescChar (quot :: y) = some (quot, y) := by
    have hq : ¬ quot = bsl := by decide
    rw [unescChar.eq_def]
    simp only [if_neg hq]
  rw [h2] at h1
  have h3 := Option.some.inj h1
  have hc : c = quot := (congrArg Prod.fst h3).symm
  rw [hc] at h
  have hesc : escChar quot = [bsl, quot] := by
    rw [escChar, if_pos rfl]
  rw [hesc] at h
  exact absurd (List.cons.injEq .. ▸ h).1 (by decide)

theorem escStr_quote_cancel :
    ∀ {s1 s2 r1 r2 : Str},
      escStr s1 ++ quot :: r1 = escStr s2 ++ quot :: r2 → s1 = s2 ∧ r1 = r2 := by
  intro s1
  induction s1 with
  | nil =>
    intro s2 r1 r2 h
    cases s2 with
    | nil =>
      simp only [escStr, List.nil_append] at h
      exact ⟨rfl, (List.cons.injEq .. ▸ h).2⟩
    | cons c t =>
      exfalso
      simp only [escStr, List.nil_append, List.append_assoc] at h
      exact escChar_append_ne_quot_cons c _ _ h.symm
  | cons c1 t1 ih =>
    intro s2 r1 r2 h
    cases s2 with
    | nil =>
      exfalso
      simp only [escStr, List.nil_append, List.append_assoc] at h
      exact escChar_append_ne_quot_cons c1 _ _ h
    | cons c2 t2 =>
      simp only [escStr, List.append_assoc] at h
      obtain ⟨hc, ht⟩ := escChar_cancel h
      obtain ⟨hs, hr⟩ := ih ht
      exact ⟨by rw [hc, hs], hr⟩

theorem encString_cancel {s1 s2 x1 x2 : Str}
    (h : encString s1 ++ x1 = encString s2 ++ x2) : s1 = s2 ∧ x1 = x2 := by
  rw [encString, encString, List.cons_append, List.cons_append,
    List.append_assoc, List.append_assoc, List.singleton_append,
    List.singleton_append] at h
  exact escStr_quote_cancel (List.cons.injEq .. ▸ h).2

theorem encString_eq_quot_cons (s : Str) :
    encString s = quot :: (escStr s ++ [quot]) := rfl

theorem arrTail_cancel :
    ∀ l1 l2 : List Str,
      joinSep [','] (l1.map encString) ++ [']'] =
        joinSep [','] (l2.map encString) ++ [']'] → l1 = l2 := by
  intro l1
  induction l1 with
  | nil =>
    intro l2 h
    cases l2 with
    | nil => rfl
    | cons y ys =>
      exfalso
      cases ys with
      | nil =>
        simp only [List.map_nil, List.map_cons, joinSep, List.nil_append] at h
        rw [encString_eq_quot_cons, List.cons_append] at h
        exact absurd (List.cons.injEq .. ▸ h).1 (by decide)
      | cons z zs =>
        simp only [List.map_nil, List.map_cons, joinSep, List.nil_append,
          List.append_assoc] at h
        rw [encString_eq_quot_cons, List.cons_append] at h
        exact absurd (List.cons.injEq .. ▸ h).1 (by decide)
  | cons x xs ih =>
    intro l2 h
    cases l2 with
    | nil =>
      exfalso
      cases xs with
      | nil =>
        simp only [List.map_nil, List.map_cons, joinSep, List.nil_append] at h
        rw [encString_eq_quot_cons, List.cons_append] at h
        exact absurd (List.cons.injEq .. ▸ h).1 (by decide)
      | cons w ws =>
        simp only [List.map_nil, List.map_cons, joinSep, List.nil_append,
          List.append_assoc] at h
        rw [encString_eq_quot_cons, List.cons_append] at h
        exact absurd (List.cons.injEq .. ▸ h).1 (by decide)
    | cons y ys =>
      cases xs with
      | nil =>
        cases ys with
        | nil =>
          simp only [List.map_cons, List.map_nil, joinSep] at h
          obtain ⟨hxy, _⟩ := encString_cancel h
          rw [hxy]
        | cons z zs =>
          exfalso
          simp only [List.map_cons, List.map_nil, joinSep,
            List.append_assoc] at h
          obtain ⟨_, htail⟩ := encString_cancel h
          simp only [List.singleton_append, List.cons_append] at htail
          exact absurd (List.cons.injEq .. ▸ htail).1 (by decide)
      | cons w ws =>
        cases ys with
        | nil =>
          exfalso
          simp only [List.map_cons, List.map_nil, joinSep,
            List.append_assoc] at h
          obtain ⟨_, htail⟩ := encString_cancel h
          simp only [List.singleton_append, List.cons_append] at htail
          exact absurd (List.cons.injEq .. ▸ htail).1.symm (by decide)
        | cons z zs =>
          simp only [List.map_cons, joinSep, List.append_assoc] at h
          obtain ⟨hxy, htail⟩ := encString_cancel h
          simp only [List.singleton_append, List.cons_append] at htail
          have h2 := (List.cons.injEq .. ▸ htail).2
          have h3 := ih (z :: zs) (by
            simp only [List.map_cons, List.append_assoc]
            exact h2)
          rw [hxy, h3]

theorem encArray_inj {l1 l2 : List Str} (h : encArray l1 = encArray l2) :
    l1 = l2 := by
  rw [encArray, encArray] at h
  exact arrTail_cancel l1 l2 (List.cons.injEq .. ▸ h).2

theorem toStr_inj {v w : IndexValue}
    (h : IndexValue.toStr v = IndexValue.toStr w) : v = w := by
  obtain ⟨sv⟩ := v
  obtain ⟨sw⟩ := w
  simp only [IndexValue.toStr] at h
  exact congrArg IndexValue.mk (encArray_inj h)

theorem hexDigit_ne_nulc_fin : ∀ a : Fin 16, hexDigit a.val ≠ nulc := by decide

theorem nulc_not_mem_escChar (c : Char) : nulc ∉ escChar c := by
  rw [escChar]
  split_ifs with h1 h2 h3 h4 h5 h6 h7 h8
  · decide
  · decide
  · decide
  · decide
  · decide
  · decide
  · decide
  · intro hmem
    simp only [List.mem_cons, List.not_mem_nil, or_false] at hmem
    rcases hmem with h | h | h | h | h | h
    · exact absurd h (by decide)
    · exact absurd h (by decide)
    · exact absurd h (by decide)
    · exact absurd h (by decide)
    · exact hexDigit_ne_nulc_fin ⟨c.toNat / 16, by omega⟩ h.symm
    · exact hexDigit_ne_nulc_fin ⟨c.toNat % 16, by omega⟩ h.symm
  · intro hmem
    simp only [List.mem_singleton] at hmem
    have : nulc.toNat = c.toNat := congrArg Char.toNat hmem
    have hz : nulc.toNat = 0 := by decide
    omega

theorem nulc_not_mem_escStr (s : Str) : nulc ∉ escStr s := by
  induction s with
  | nil => simp [escStr]
  | cons c t ih =>
    rw [escStr]
    intro hmem
    rcases List.mem_append.1 hmem with h | h
    · exact nulc_not_mem_escChar c h
    · exact ih h

theorem nulc_not_mem_encString (s : Str) : nulc ∉ encString s := by
  rw [encString]
  intro hmem
  rcases List.mem_cons.1 hmem with h | h
  · exact absurd h (by decide)
  · rcases List.mem_append.1 h with h' | h'
    · exact nulc_not_mem_escStr s h'
    · simp only [List.mem_singleton] at h'
      exact absurd h' (by decide)

theorem joinSep_nil (sep : Str) : joinSep sep [] = [] := rfl

theorem joinSep_singleton (sep x : Str) : joinSep sep [x] = x := rfl

theorem joinSep_cons_cons (sep x y : Str) (ys : List Str) :
    joinSep sep (x :: y :: ys) = x ++ sep ++ joinSep sep (y :: ys) := rfl

theorem nulc_not_mem_joinSep_comma :
    ∀ l : List Str, (∀ s ∈ l, nulc ∉ s) → nulc ∉ joinSep [','] l := by
  intro l
  induction l with
  | nil => simp [joinSep]
  | cons x xs ih =>
    intro h
    cases xs with
    | nil =>
      rw [joinSep_singleton]
      exact h x (List.mem_singleton_self x)
    | cons y ys =>
      rw [joinSep_cons_cons]
      intro hmem
      rcases List.mem_append.1 hmem with h' | h'
      · rcases List.mem_append.1 h' with h'' | h''
        · exact h x (List.mem_cons_self _ _) h''
        · simp only [List.mem_singleton] at h''
          exact absurd h'' (by decide)
      · exact ih (fun s hs => h s (List.mem_cons_of_mem _ hs)) h'

theorem nulc_not_mem_toStr (v : IndexValue) : nulc ∉ IndexValue.toStr v := by
  obtain ⟨segs⟩ := v
  simp only [IndexValue.toStr, encArray]
  intro hmem
  rcases List.mem_cons.1 hmem with h | h
  · exact absurd h (by decide)
  · rcases List.mem_append.1 h with h' | h'
    · refine nulc_not_mem_joinSep_comma _ ?_ h'
      intro s hs
      obtain ⟨t, _, rfl⟩ := List.mem_map.1 hs
      exact nulc_not_mem_encString t
    · simp only [List.mem_singleton] at h'
      exact absurd h' (by decide)

theorem toStr_ne_nil (v : IndexValue) : IndexValue.toStr v ≠ [] := by
  obtain ⟨segs⟩ := v
  simp [IndexValue.toStr, encArray]

theorem append_nul_cancel :
    ∀ (x : Str) (y R1 R2 : Str), nulc ∉ x → nulc ∉ y →
      x ++ nulc :: R1 = y ++ nulc :: R2 → x = y ∧ R1 = R2 := by
  intro x
  induction x with
  | nil =>
    intro y R1 R2 _ hy h
    cases y with
    | nil => simpa using h
    | cons b y' =>
      exfalso
      rw [List.nil_append, List.cons_append] at h
      have hb := (List.cons.injEq .. ▸ h).1
      exact hy (by rw [← hb]; exact List.mem_cons_self _ _)
  | cons a x' ih =>
    intro y R1 R2 hx hy h
    cases y with
    | nil =>
      exfalso
      rw [List.nil_append, List.cons_append] at h
      have ha := (List.cons.injEq .. ▸ h).1
      exact hx (by rw [ha]; exact List.mem_cons_self _ _)
    | cons b y' =>
      rw [List.cons_append, List.cons_append] at h
      have hab := (List.cons.injEq .. ▸ h).1
      have htail := (List.cons.injEq .. ▸ h).2
      obtain ⟨h1, h2⟩ := ih y' R1 R2
        (fun hm => hx (List.mem_cons_of_mem _ hm))
        (fun hm => hy (List.mem_cons_of_mem _ hm)) htail
      exact ⟨by rw [hab, h1], h2⟩

theorem joinSep_nul_inj :
    ∀ l1 l2 : List Str,
      (∀ s ∈ l1, nulc ∉ s ∧ s ≠ []) → (∀ s ∈ l2, nulc ∉ s ∧ s ≠ []) →
      joinSep [nulc] l1 = joinSep [nulc] l2 → l1 = l2 := by
  intro l1
  induction l1 with
  | nil =>
    intro l2 _ h2 h
    cases l2 with
    | nil => rfl
    | cons y ys =>
      exfalso
      cases ys with
      | nil =>
        rw [joinSep_nil, joinSep_singleton] at h
        exact (h2 y (List.mem_singleton_self y)).2 h.symm
      | cons z zs =>
        rw [joinSep_nil, joinSep_cons_cons] at h
        rcases List.append_eq_nil.1 h.symm with ⟨h3, _⟩
        rcases List.append_eq_nil.1 h3 with ⟨h4, _⟩
        exact (h2 y (List.mem_cons_self _ _)).2 h4
  | cons x xs ih =>
    intro l2 h1 h2 h
    cases l2 with
    | nil =>
      exfalso
      cases xs with
      | nil =>
        rw [joinSep_singleton, joinSep_nil] at h
        exact (h1 x (List.mem_singleton_self x)).2 h
      | cons w ws =>
        rw [joinSep_cons_cons, joinSep_nil] at h
        rcases List.append_eq_nil.1 h with ⟨h3, _⟩
        rcases List.append_eq_nil.1 h3 with ⟨h4, _⟩
        exact (h1 x (List.mem_cons_self _ _)).2 h4
    | cons y ys =>
      cases xs with
      | nil =>
        cases ys with
        | nil =>
          rw [joinSep_singleton, joinSep_singleton] at h
          rw [h]
        | cons z zs =>
          exfalso
          rw [joinSep_singleton, joinSep_cons_cons, List.append_assoc,
            List.singleton_append] at h
          exact (h1 x (List.mem_singleton_self x)).1
            (by rw [h]; exact List.mem_append_right _ (List.mem_cons_self _ _))
      | cons w ws =>
        cases ys with
        | nil =>
          exfalso
          rw [joinSep_cons_cons, joinSep_singleton, List.append_assoc,
            List.singleton_append] at h
          exact (h2 y (List.mem_singleton_self y)).1
            (by rw [← h]; exact List.mem_append_right _ (List.mem_cons_self _ _))
        | cons z zs =>
          rw [joinSep_cons_cons, joinSep_cons_cons, List.append_assoc,
            List.append_assoc, List.singleton_append, List.singleton_append] at h
          obtain ⟨hxy, htail⟩ := append_nul_cancel x y _ _
            (h1 x (List.mem_cons_self _ _)).1 (h2 y (List.mem_cons_self _ _)).1 h
          have h3 := ih (z :: zs)
            (fun s hs => h1 s (List.mem_cons_of_mem _ hs))
            (fun s hs => h2 s (List.mem_cons_of_mem _ hs)) htail
          rw [hxy, h3]

theorem format_index_key_inj {v w : List IndexValue}
    (h : format_index_key v = format_index_key w) : v = w := by
  rw [format_index_key, format_index_key] at h
  have hmaps := joinSep_nul_inj (v.map IndexValue.toStr) (w.map IndexValue.toStr)
    (by
      intro s hs
      obtain ⟨iv, _, rfl⟩ := List.mem_map.1 hs
      exact ⟨nulc_not_mem_toStr iv, toStr_ne_nil iv⟩)
    (by
      intro s hs
      obtain ⟨iv, _, rfl⟩ := List.mem_map.1 hs
      exact ⟨nulc_not_mem_toStr iv, toStr_ne_nil iv⟩)
    h
  exact List.map_injective_iff.2 (fun a b hab => toStr_inj hab) hmaps

theorem format_index_key_singleton (v : IndexValue) :
    format_index_key [v] = IndexValue.toStr v := rfl

/-! ## Registry and lookup helpers -/

theorem registryGet_some {M : Type} {defs : List (IndexDefinition M)}
    {sel : Str} {d : IndexDefinition M} (h : registryGet defs sel = some d) :
    d ∈ defs ∧ d.name = sel := by
  rw [registryGet] at h
  have h1 := List.mem_of_find?_eq_some h
  have h2 := List.find?_some h
  exact ⟨h1, of_decide_eq_true h2⟩

theorem registryGet_none_iff {M : Type} (defs : List (IndexDefinition M))
    (sel : Str) :
    registryGet defs sel = none ↔ ∀ d ∈ defs, d.name ≠ sel := by
  rw [registryGet, List.find?_eq_none]
  constructor
  · intro h d hd
    have := h d hd
    simpa using this
  · intro h d hd
    simpa using h d hd

theorem defs_name_inj {sig : ModelSig M ι} (hnames : namesNodup sig)
    {d1 d2 : IndexDefinition M} (h1 : d1 ∈ sig.defs) (h2 : d2 ∈ sig.defs)
    (h : d1.name = d2.name) : d1 = d2 :=
  List.inj_on_of_nodup_map hnames h1 h2 h

theorem find_by_index_eq {sig : ModelSig M ι} {st : Inner M ι} {sel : Str}
    {d : IndexDefinition M} (key : IndexValue)
    (hreg : registryGet sig.defs sel = some d) :
    find_by_index sig st sel key =
      Except.ok ((bucketL st.indices (d.name, IndexValue.toStr key)).filterMap
        (fun rid => lookupA st.data rid)) := by
  rw [find_by_index.eq_def, hreg]
  rcases hl : lookupA st.indices (d.name, IndexValue.toStr key) with _ | ids
  · simp only [hl, bucketL, Option.getD_none, List.filterMap_nil]
  · simp only [hl, bucketL, Option.getD_some]

theorem count_filterMap_eq {f : ι → Option M} {i0 : ι} {m0 : M}
    (hf : ∀ r, f r = some m0 ↔ r = i0) :
    ∀ l : List ι, List.count m0 (l.filterMap f) = List.count i0 l := by
  intro l
  induction l with
  | nil => simp
  | cons r rest ih =>
    rw [List.filterMap_cons, List.count_cons]
    rcases hr : f r with _ | m'
    · have hne : ¬ r = i0 := by
        intro hh
        rw [(hf r).2 hh] at hr
        cases hr
      rw [ih]
      simp [hne]
    · rw [List.count_cons, ih]
      by_cases hm : m' = m0
      · have : r = i0 := (hf r).1 (by rw [hr, hm])
        simp [hm, this]
      · have hne : ¬ r = i0 := by
          intro hh
          rw [(hf r).2 hh] at hr
          exact hm (Option.some.inj hr).symm
        simp [hm, hne, fun hh : m0 = m' => hm hh.symm, fun hh : i0 = r => hne hh.symm]

/-! ## Preservation of a stored binding by non-targeting operations -/

theorem lookup_preserved_applyOp {sig : ModelSig M ι} {st : Inner M ι} {m : M}
    (h : lookupA st.data (sig.id m) = some m) (op : Op M ι)
    (hop : ¬ targetsId sig op (sig.id m)) :
    lookupA (applyOp sig st op).data (sig.id m) = some m := by
  cases op with
  | ins m' =>
    rcases hres : (insertOp sig st m').1 with _ | e
    · have hsucc : insertOp sig st m' = (none, (insertOp sig st m').2) := by
        rw [← hres]
      obtain ⟨hnone, _, hst⟩ := insertOp_success hsucc
      have hne : sig.id m ≠ sig.id m' := by
        intro hh
        rw [← hh, h] at hnone
        cases hnone
      show lookupA (insertOp sig st m').2.data (sig.id m) = some m
      rw [hst]
      rw [show ({ st with
          data := insertA st.data (sig.id m') m',
          indices := insert_indices_inner sig m' sig.defs st.indices } :
          Inner M ι).data = insertA st.data (sig.id m') m' from rfl]
      rw [lookupA_insertA_ne _ _ _ _ hne]
      exact h
    · show lookupA (insertOp sig st m').2.data (sig.id m) = some m
      rw [insertOp_error_state sig st m' (by rw [hres]; rfl)]
      exact h
  | upd m' =>
    have hne : sig.id m ≠ sig.id m' := fun hh => hop hh.symm
    rcases hres : (updateOp sig st m').1 with _ | e
    · have hsucc : updateOp sig st m' = (none, (updateOp sig st m').2) := by
        rw [← hres]
      obtain ⟨_, _, hst⟩ := updateOp_success hsucc
      show lookupA (updateOp sig st m').2.data (sig.id m) = some m
      rw [hst]
      rw [show ({ st with
          data := insertA st.data (sig.id m') m',
          indices := insert_indices_inner sig m' sig.defs
            (delete_indices_inner st.indices (sig.id m')) } :
          Inner M ι).data = insertA st.data (sig.id m') m' from rfl]
      rw [lookupA_insertA_ne _ _ _ _ hne]
      exact h
    · show lookupA (updateOp sig st m').2.data (sig.id m) = some m
      rw [updateOp_error_state sig st m' (by rw [hres]; rfl)]
      exact h
  | del i =>
    have hne : sig.id m ≠ i := fun hh => hop hh.symm
    rcases hres : (deleteOp sig st i).1 with _ | e
    · have hsucc : deleteOp sig st i = (none, (deleteOp sig st i).2) := by
        rw [← hres]
      obtain ⟨_, hst⟩ := deleteOp_success hsucc
      show lookupA (deleteOp sig st i).2.data (sig.id m) = some m
      rw [hst]
      rw [show ({ st with
          data := removeA st.data i,
          indices := delete_indices_inner st.indices i } :
          Inner M ι).data = removeA st.data i from rfl]
      rw [lookupA_removeA_ne _ _ _ hne]
      exact h
    · show lookupA (deleteOp sig st i).2.data (sig.id m) = some m
      rw [deleteOp_error_state sig st i (by rw [hres]; rfl)]
      exact h

/-! ## The claims -/

/-- Claim C2: the composite-key encoding is unambiguous and order-sensitive —
if `format_index_key` produces equal strings on two lists of `IndexValue`s
then the lists are equal element-wise and order-wise, and the NUL delimiter
byte never occurs inside any segment's string form. -/
theorem C2_format_index_key_unambiguous :
    (∀ v w : List IndexValue,
        format_index_key v = format_index_key w → v = w) ∧
    (∀ x : IndexValue, nulc ∉ IndexValue.toStr x) :=
  ⟨fun _ _ h => format_index_key_inj h, nulc_not_mem_toStr⟩

/-- Witness for C2 at concrete inputs. -/
theorem C2_witness :
    ([⟨[['a'], ['b']]⟩] : List IndexValue) = [⟨[['a'], ['b']]⟩] ∧
      nulc ∉ IndexValue.toStr ⟨[['c']]⟩ :=
  ⟨C2_format_index_key_unambiguous.1 [⟨[['a'], ['b']]⟩] [⟨[['a'], ['b']]⟩] rfl,
   C2_format_index_key_unambiguous.2 ⟨[['c']]⟩⟩

/-- Claim C3: insert is atomic on failure — whenever `MockDatabase::insert`
returns an error, the data and index maps are exactly the pre-call maps (so
`count()` is unchanged and all previous records and index entries are
intact); and an error occurs exactly when the id is already present or some
unique index's bucket at the incoming model's key is occupied. -/
theorem C3_insert_atomic_on_failure (sig : ModelSig M ι) (st : Inner M ι)
    (m : M) :
    ((insertOp sig st m).1.isSome →
      (insertOp sig st m).2 = st ∧
        countOp (insertOp sig st m).2 = countOp st) ∧
    ((insertOp sig st m).1.isSome ↔
      (lookupA st.data (sig.id m)).isSome = true ∨
        ∃ d ∈ sig.defs, d.unique = true ∧
          bucketL st.indices (keyOf d m) ≠ []) := by
  constructor
  · intro h
    have hstate := insertOp_error_state sig st m h
    exact ⟨hstate, by rw [hstate]⟩
  · rw [insertOp_error_iff]
    have hiff : check_unique_violations sig st m none sig.defs ≠ none ↔
        ∃ d ∈ sig.defs, d.unique = true ∧
          bucketL st.indices (keyOf d m) ≠ [] := by
      rw [Ne, checkUV_eq_none_iff]
      constructor
      · intro h
        push_neg at h
        obtain ⟨d, hd, hu, e, he, _⟩ := h
        exact ⟨d, hd, hu, fun hnil => by rw [hnil] at he; cases he⟩
      · rintro ⟨d, hd, hu, hne⟩ hall
        apply hne
        rw [List.eq_nil_iff_forall_not_mem]
        intro e he
        have := hall d hd hu e he
        simp at this
    rw [hiff]

/-- Witness for C3: a duplicate-id insert and a unique-violation insert into
the one-record test store both leave the state unchanged. -/
theorem C3_witness :
    (insertOp testSig stW1 (1, ['b'])).2 = stW1 ∧
      (insertOp testSig stW1 (2, ['a'])).2 = stW1 :=
  ⟨((C3_insert_atomic_on_failure testSig stW1 (1, ['b'])).1 (by decide)).1,
   ((C3_insert_atomic_on_failure testSig stW1 (2, ['a'])).1 (by decide)).1⟩

/-- Claim C6: updating a nonexistent id fails with `NotFound` and mutates
nothing — the returned state is exactly the input state. -/
theorem C6_update_nonexistent (sig : ModelSig M ι) (st : Inner M ι) (m : M)
    (h : lookupA st.data (sig.id m) = none) :
    updateOp sig st m =
      (some (DatabaseError.NotFound (sig.idStr (sig.id m))), st) :=
  updateOp_notfound h

/-- Witness for C6 on the empty test store. -/
theorem C6_witness :
    updateOp testSig (emptyInner TestM Nat) (7, ['q']) =
      (some (DatabaseError.NotFound []), emptyInner TestM Nat) :=
  C6_update_nonexistent testSig (emptyInner TestM Nat) (7, ['q']) rfl

/-- Claim C10: the in-memory backend's index map never contains an empty
bucket — in every reachable state, every key present in the indices map is
mapped to a non-empty list of record ids. -/
theorem C10_no_empty_buckets {sig : ModelSig M ι} {st : Inner M ι}
    (hR : Reachable sig st) :
    ∀ k v, (k, v) ∈ st.indices → v ≠ [] := by
  induction hR with
  | empty =>
    intro k v hkv
    simp [emptyInner] at hkv
  | step st' op _ ih =>
    have ih' : ∀ kv ∈ st'.indices, kv.2 ≠ [] := fun kv hkv => ih kv.1 kv.2 hkv
    intro k v hkv
    cases op with
    | ins m =>
      rcases hres : (insertOp sig st' m).1 with _ | e
      · have hsucc : insertOp sig st' m = (none, (insertOp sig st' m).2) := by
          rw [← hres]
        obtain ⟨_, _, hst⟩ := insertOp_success hsucc
        have hkv2 : (k, v) ∈ (insertOp sig st' m).2.indices := hkv
        rw [hst] at hkv2
        exact noEmpty_iii sig m sig.defs ih' (k, v) hkv2
      · have hkv2 : (k, v) ∈ (insertOp sig st' m).2.indices := hkv
        rw [insertOp_error_state sig st' m (by rw [hres]; rfl)] at hkv2
        exact ih k v hkv2
    | upd m =>
      rcases hres : (updateOp sig st' m).1 with _ | e
      · have hsucc : updateOp sig st' m = (none, (updateOp sig st' m).2) := by
          rw [← hres]
        obtain ⟨_, _, hst⟩ := updateOp_success hsucc
        have hkv2 : (k, v) ∈ (updateOp sig st' m).2.indices := hkv
        rw [hst] at hkv2
        exact noEmpty_iii sig m sig.defs
          (noEmpty_dii st'.indices (sig.id m)) (k, v) hkv2
      · have hkv2 : (k, v) ∈ (updateOp sig st' m).2.indices := hkv
        rw [updateOp_error_state sig st' m (by rw [hres]; rfl)] at hkv2
        exact ih k v hkv2
    | del i =>
      rcases hres : (deleteOp sig st' i).1 with _ | e
      · have hsucc : deleteOp sig st' i = (none, (deleteOp sig st' i).2) := by
          rw [← hres]
        obtain ⟨_, hst⟩ := deleteOp_success hsucc
        have hkv2 : (k, v) ∈ (deleteOp sig st' i).2.indices := hkv
        rw [hst] at hkv2
        exact noEmpty_dii st'.indices i (k, v) hkv2
      · have hkv2 : (k, v) ∈ (deleteOp sig st' i).2.indices := hkv
        rw [deleteOp_error_state sig st' i (by rw [hres]; rfl)] at hkv2
        exact ih k v hkv2

/-- Witness for C10 on the one-record test store. -/
theorem C10_witness : ([1] : List Nat) ≠ [] :=
  C10_no_empty_buckets
    (show Reachable testSig stW1 from
      Reachable.step (emptyInner TestM Nat) (Op.ins (1, ['a'])) Reachable.empty)
    (keyOf dE (1, ['a'])) [1] (by decide)

/-- Claim C1: in every state of the in-memory backend reachable from the
empty store by completed insert/update/delete calls, (1) every stored record
has exactly one occurrence of its id in the bucket of each declared index
keyed by that record's extracted composite key, (2) no bucket references an
id absent from the data map, and (3) every unique index's buckets hold at
most one id. -/
theorem C1_index_invariants (sig : ModelSig M ι) (st : Inner M ι)
    (hnames : namesNodup sig) (hR : Reachable sig st) :
    (∀ i m, lookupA st.data i = some m → ∀ d ∈ sig.defs,
        List.count i (bucket st (keyOf d m)) = 1) ∧
    (∀ k ids, (k, ids) ∈ st.indices →
        ∀ i ∈ ids, ∃ m, lookupA st.data i = some m) ∧
    (∀ d ∈ sig.defs, d.unique = true →
        ∀ s, (bucket st (d.name, s)).length ≤ 1) := by
  have hInv := minv_reachable hnames hR
  refine ⟨?_, ?_, ?_⟩
  · intro i m hlook d hd
    rw [hInv.countChar (keyOf d m) i]
    rw [List.countP_congr
      (fun d' _ => by rw [defMatches_of_some hlook (keyOf d m) d'])]
    rw [countP_names_eq hnames hd _
      (fun d' _ hp' => congrArg Prod.fst (of_decide_eq_true hp'))]
    simp
  · intro k ids hmem i hi
    rcases hl : lookupA st.data i with _ | m
    · exfalso
      have hlook := lookupA_of_mem_nodup hInv.indNodup hmem
      have hcount := hInv.countChar k i
      rw [bucket, bucketL, hlook] at hcount
      simp only [Option.getD_some] at hcount
      have hzero : List.countP (defMatches st i k) sig.defs = 0 :=
        List.countP_eq_zero.2
          (fun d _ => by rw [defMatches_of_none hl]; simp)
      rw [hzero] at hcount
      have hpos := List.count_pos_iff.2 hi
      omega
    · exact ⟨m, rfl⟩
  · intro d hd hu s
    exact hInv.uniqueLen d hd hu s

/-- The test registry has pairwise-distinct index names. -/
theorem testSig_names : namesNodup testSig := by
  unfold namesNodup
  decide

/-- Witness for C1 on the one-record test store. -/
theorem C1_witness :
    List.count 1 (bucket stW1 (keyOf dE (1, ['a']))) = 1 ∧
      (∃ m, lookupA stW1.data 1 = some m) ∧
      (bucket stW1 (dE.name, ['x'])).length ≤ 1 := by
  have h := C1_index_invariants testSig stW1 testSig_names
    (Reachable.step (emptyInner TestM Nat) (Op.ins (1, ['a'])) Reachable.empty)
  exact ⟨h.1 1 (1, ['a']) rfl dE (List.mem_cons_self _ _),
    h.2.1 (keyOf dE (1, ['a'])) [1] (by decide) 1 (List.mem_singleton_self 1),
    h.2.2 dE (List.mem_cons_self _ _) rfl ['x']⟩

/-- Claim C7: insert/get round trip with persistence — after a successful
insert of `m`, `get (id m)` returns exactly `m`, and this keeps holding
across any sequence of completed mutating operations none of which is an
update or delete of `m`'s id (reads never change the state at all in this
embedding). -/
theorem C7_insert_get_roundtrip {sig : ModelSig M ι} {st st1 : Inner M ι}
    {m : M} (hins : insertOp sig st m = (none, st1)) (ops : List (Op M ι))
    (hops : ∀ op ∈ ops, ¬ targetsId sig op (sig.id m)) :
    getOp (List.foldl (applyOp sig) st1 ops) (sig.id m) = some m := by
  have h0 : lookupA st1.data (sig.id m) = some m := by
    obtain ⟨_, _, hst⟩ := insertOp_success hins
    rw [hst]
    exact lookupA_insertA_self st.data (sig.id m) m
  clear hins
  revert hops
  induction ops generalizing st1 with
  | nil =>
    intro _
    exact h0
  | cons op rest ih =>
    intro hops
    rw [List.foldl_cons]
    exact ih
      (lookup_preserved_applyOp h0 op (hops op (List.mem_cons_self _ _)))
      (fun op' h' => hops op' (List.mem_cons_of_mem _ h'))

/-- Witness for C7: record 1 survives an insert of record 2 and a delete of
record 2. -/
theorem C7_witness :
    getOp (List.foldl (applyOp testSig) stW1 [Op.ins (2, ['b']), Op.del 2]) 1
      = some (1, ['a']) := by
  have hins : insertOp testSig (emptyInner TestM Nat) (1, ['a'])
      = (none, stW1) := rfl
  refine C7_insert_get_roundtrip hins [Op.ins (2, ['b']), Op.del 2] ?_
  intro op hop
  rcases List.mem_cons.1 hop with rfl | hop
  · simp [targetsId]
  · rcases List.mem_cons.1 hop with rfl | hop
    · simp only [targetsId]
      decide
    · simp at hop

/-- Claim C8: index-operation validation — with an undeclared selector (one
equal to no declared index name) both lookups fail with `IndexNotFound`; a
unique-only lookup against a declared non-unique index fails with
`IndexNotUnique`. Both lookups are pure reads of the state in this
embedding, so they cannot mutate it. -/
theorem C8_index_validation (sig : ModelSig M ι) (st : Inner M ι) (sel : Str)
    (key : IndexValue) :
    (registryGet sig.defs sel = none →
      find_by_unique_index sig st sel key =
          Except.error (DatabaseError.IndexNotFound sel) ∧
        find_by_index sig st sel key =
          Except.error (DatabaseError.IndexNotFound sel)) ∧
    (∀ d, registryGet sig.defs sel = some d → d.unique = false →
      find_by_unique_index sig st sel key =
        Except.error (DatabaseError.IndexNotUnique sel)) ∧
    (registryGet sig.defs sel = none ↔ ∀ d ∈ sig.defs, d.name ≠ sel) := by
  refine ⟨?_, ?_, registryGet_none_iff sig.defs sel⟩
  · intro h
    constructor
    · rw [find_by_unique_index.eq_def, h]
    · rw [find_by_index.eq_def, h]
  · intro d hreg hu
    rw [find_by_unique_index.eq_def, hreg]
    simp only [hu]
    rfl

/-- Witness for C8: undeclared selector `z` and non-unique selector `n`. -/
theorem C8_witness :
    find_by_unique_index testSig stW1 ['z'] ⟨[['a']]⟩ =
        Except.error (DatabaseError.IndexNotFound ['z']) ∧
      find_by_index testSig stW1 ['z'] ⟨[['a']]⟩ =
        Except.error (DatabaseError.IndexNotFound ['z']) ∧
      find_by_unique_index testSig stW1 ['n'] ⟨[['a']]⟩ =
        Except.error (DatabaseError.IndexNotUnique ['n']) := by
  have h1 := C8_index_validation testSig stW1 ['z'] ⟨[['a']]⟩
  have h2 := C8_index_validation testSig stW1 ['n'] ⟨[['a']]⟩
  exact ⟨(h1.1 rfl).1, (h1.1 rfl).2, h2.2.1 dN rfl rfl⟩

/-- Claim C9: `get_many` is positional and order-preserving — when every
individual `get` succeeds, the batch succeeds with a list of the same length
whose n-th element is exactly the n-th `get` result, in input order. -/
theorem C9_get_many_positional {E A I : Type} (g : I → Except E A)
    (ids : List I) (h : ∀ i ∈ ids, ∃ v, g i = Except.ok v) :
    ∃ l : List A, get_many g ids = Except.ok l ∧ l.length = ids.length ∧
      ∀ n : Nat, ∀ hn : n < ids.length, ∀ hl : n < l.length,
        g (ids.get ⟨n, hn⟩) = Except.ok (l.get ⟨n, hl⟩) := by
  induction ids with
  | nil =>
    refine ⟨[], rfl, rfl, ?_⟩
    intro n hn
    exact absurd hn (by simp)
  | cons i rest ih =>
    obtain ⟨v, hv⟩ := h i (List.mem_cons_self _ _)
    obtain ⟨l, hl, hlen, hpos⟩ := ih (fun j hj => h j (List.mem_cons_of_mem _ hj))
    refine ⟨v :: l, ?_, by simpa using hlen, ?_⟩
    · rw [get_many, hv, hl]
    · intro n hn hln
      cases n with
      | zero => exact hv
      | succ k => exact hpos k (by simpa using hn) (by simpa using hln)

/-- Witness for C9 using the mock backend's always-`Ok` get on ids `[1, 5]`
(record 1 present, record 5 absent). -/
theorem C9_witness :
    ∃ l : List (Option TestM),
      get_many (mockGetE stW1) [1, 5] = Except.ok l ∧
        l.length = ([1, 5] : List Nat).length ∧
        ∀ n : Nat, ∀ hn : n < ([1, 5] : List Nat).length, ∀ hl : n < l.length,
          mockGetE stW1 (([1, 5] : List Nat).get ⟨n, hn⟩) =
            Except.ok (l.get ⟨n, hl⟩) :=
  C9_get_many_positional (mockGetE stW1) [1, 5]
    (fun i _ => ⟨lookupA stW1.data i, rfl⟩)

/-- Claim C5: after a successful delete of a stored record's id, `get`
returns none for it, `find_by_unique_index` returns none for every unique
key that previously resolved to that record, `find_by_index` no longer
includes the record for any selector/key, and no bucket in the index map
still references the deleted id. -/
theorem C5_delete_removes_everywhere (sig : ModelSig M ι)
    (st st' : Inner M ι) (i : ι) (m : M)
    (hnames : namesNodup sig) (hR : Reachable sig st)
    (hm : lookupA st.data i = some m)
    (hdel : deleteOp sig st i = (none, st')) :
    getOp st' i = none ∧
    (∀ sel key, find_by_unique_index sig st sel key = Except.ok (some m) →
      find_by_unique_index sig st' sel key = Except.ok none) ∧
    (∀ sel key l l', find_by_index sig st sel key = Except.ok l → m ∈ l →
      find_by_index sig st' sel key = Except.ok l' → m ∉ l') ∧
    (∀ kv ∈ st'.indices, i ∉ kv.2) := by
  have hInv := minv_reachable hnames hR
  obtain ⟨hin, hst⟩ := deleteOp_success hdel
  have hIdm : sig.id m = i := hInv.dataWF i m hm
  have hInv' : MInv sig st' := by
    have h := minv_delete hInv i
    rw [hdel] at h
    exact h
  have hdata' : st'.data = removeA st.data i := by rw [hst]
  have hind' : st'.indices = delete_indices_inner st.indices i := by rw [hst]
  refine ⟨?_, ?_, ?_, ?_⟩
  · show lookupA st'.data i = none
    rw [hdata']
    exact lookupA_removeA_self hInv.dataNodup i
  · intro sel key hfind
    rcases hreg : registryGet sig.defs sel with _ | d
    · rw [find_by_unique_index.eq_def, hreg] at hfind
      cases hfind
    · obtain ⟨hdmem, _⟩ := registryGet_some hreg
      rw [find_by_unique_index.eq_def, hreg] at hfind
      rw [find_by_unique_index.eq_def, hreg]
      by_cases hu : d.unique = true
      · simp only [hu, if_true] at hfind ⊢
        rcases hl : lookupA st.indices (d.name, IndexValue.toStr key)
          with _ | ids
        · rw [hl] at hfind
          cases hfind
        · rw [hl] at hfind
          rcases ids with _ | ⟨r, rest⟩
          · cases hfind
          · simp only [List.head?_cons] at hfind
            have hrm : lookupA st.data r = some m := Except.ok.inj hfind
            have hri : r = i := by
              have := hInv.dataWF r m hrm
              rw [← this, hIdm]
            have hlen : (bucketL st.indices (d.name, IndexValue.toStr key)).length ≤ 1 := by
              have h2 := hInv.uniqueLen d hdmem hu (IndexValue.toStr key)
              rw [bucket] at h2
              exact h2
            rw [bucketL, hl] at hlen
            simp only [Option.getD_some, List.length_cons] at hlen
            have hrest : rest = [] := by
              cases rest with
              | nil => rfl
              | cons a b => simp at hlen
            have hb' : bucketL st'.indices (d.name, IndexValue.toStr key) = [] := by
              rw [hind', bucketL_dii hInv.indNodup, bucketL, hl]
              simp only [Option.getD_some]
              rw [hrest, hri]
              simp
            rcases hl' : lookupA st'.indices (d.name, IndexValue.toStr key)
              with _ | ids'
            · rfl
            · exfalso
              have hmem' := lookupA_mem hl'
              have hne := hInv'.noEmpty _ hmem'
              rw [bucketL, hl'] at hb'
              exact hne hb'
      · simp only [hu] at hfind
        simp at hfind
  · intro sel key l l' _ _ hfnew hmem'
    rcases hreg : registryGet sig.defs sel with _ | d
    · rw [find_by_index.eq_def, hreg] at hfnew
      cases hfnew
    · rw [find_by_index_eq key hreg] at hfnew
      have hl' : l' = (bucketL st'.indices (d.name, IndexValue.toStr key)).filterMap
          (fun rid => lookupA st'.data rid) := (Except.ok.inj hfnew).symm
      rw [hl'] at hmem'
      obtain ⟨r, _, hrm⟩ := List.mem_filterMap.1 hmem'
      have hid2 : sig.id m = r := hInv'.dataWF r m hrm
      have hri : r = i := by rw [← hid2, hIdm]
      rw [hri, hdata', lookupA_removeA_self hInv.dataNodup] at hrm
      cases hrm
  · intro kv hkv
    rw [hind'] at hkv
    intro hik
    exact (mem_dii_ne st.indices i kv hkv i hik) rfl

/-- Witness for C5: delete record 1 from the one-record test store. -/
theorem C5_witness :
    getOp (deleteOp testSig stW1 1).2 1 = none ∧
      find_by_unique_index testSig (deleteOp testSig stW1 1).2 ['e'] ⟨[['a']]⟩
        = Except.ok none := by
  have h := C5_delete_removes_everywhere testSig stW1
    (deleteOp testSig stW1 1).2 1 (1, ['a']) testSig_names
    (Reachable.step (emptyInner TestM Nat) (Op.ins (1, ['a'])) Reachable.empty)
    rfl rfl
  exact ⟨h.1, h.2.1 ['e'] ⟨[['a']]⟩ rfl⟩

/-- Claim C4: after a successful update changes a record's extracted key on
a declared index from `A` to `B`, `find_by_index` at `A` no longer contains
the record (and is empty when no other record has key `A`), and
`find_by_index` at `B` contains the updated record exactly once (and is
exactly that singleton when no other record has key `B`). -/
theorem C4_update_moves_index (sig : ModelSig M ι) (st st' : Inner M ι)
    (sel : Str) (d : IndexDefinition M) (i : ι) (mold mnew : M)
    (A B : IndexValue)
    (hnames : namesNodup sig) (hR : Reachable sig st)
    (hreg : registryGet sig.defs sel = some d)
    (hidnew : sig.id mnew = i)
    (hold : lookupA st.data i = some mold)
    (hup : updateOp sig st mnew = (none, st'))
    (hA : d.extract mold = [A]) (hB : d.extract mnew = [B]) (hAB : A ≠ B) :
    ∃ lA lB : List M,
      find_by_index sig st' sel A = Except.ok lA ∧
      find_by_index sig st' sel B = Except.ok lB ∧
      mnew ∉ lA ∧ List.count mnew lB = 1 ∧
      ((∀ i' m', lookupA st'.data i' = some m' → i' ≠ i →
          d.extract m' ≠ [A]) → lA = []) ∧
      ((∀ i' m', lookupA st'.data i' = some m' → i' ≠ i →
          d.extract m' ≠ [B]) → lB = [mnew]) := by
  have hInv := minv_reachable hnames hR
  obtain ⟨hin, hUV, hst⟩ := updateOp_success hup
  obtain ⟨hdmem, _⟩ := registryGet_some hreg
  have hInv' : MInv sig st' := by
    have h := minv_update hnames hInv mnew
    rw [hup] at h
    exact h
  have hdata' : st'.data = insertA st.data (sig.id mnew) mnew := by rw [hst]
  have hind' : st'.indices = insert_indices_inner sig mnew sig.defs
      (delete_indices_inner st.indices (sig.id mnew)) := by rw [hst]
  have hkeynew : keyOf d mnew = (d.name, IndexValue.toStr B) := by
    rw [keyOf, hB, format_index_key_singleton]
  have hkeyA : (d.name, IndexValue.toStr A) ≠ keyOf d mnew := by
    rw [hkeynew]
    intro hh
    exact hAB (toStr_inj (Prod.mk.injEq .. ▸ hh).2)
  have hbA : bucketL st'.indices (d.name, IndexValue.toStr A)
      = (bucketL st.indices (d.name, IndexValue.toStr A)).filter
          (fun r => decide (r ≠ i)) := by
    rw [hind', bucketL_iii, bucketL_dii hInv.indNodup, hidnew]
    have hzero : List.countP
        (fun d' => decide (keyOf d' mnew = (d.name, IndexValue.toStr A)))
        sig.defs = 0 := by
      rw [List.countP_eq_zero]
      intro d' hd' hp'
      have hkey' := of_decide_eq_true hp'
      have hdd : d' = d := defs_name_inj hnames hd' hdmem
        (congrArg Prod.fst hkey')
      rw [hdd] at hkey'
      exact hkeyA hkey'.symm
    rw [hzero]
    simp
  have hbB : bucketL st'.indices (d.name, IndexValue.toStr B)
      = (bucketL st.indices (d.name, IndexValue.toStr B)).filter
          (fun r => decide (r ≠ i)) ++ [i] := by
    rw [hind', bucketL_iii, bucketL_dii hInv.indNodup, hidnew]
    have hone : List.countP
        (fun d' => decide (keyOf d' mnew = (d.name, IndexValue.toStr B)))
        sig.defs = 1 := by
      rw [countP_names_eq hnames hdmem _
        (fun d' _ hp' => congrArg Prod.fst (of_decide_eq_true hp'))]
      rw [if_pos (decide_eq_true hkeynew)]
    rw [hone]
    rfl
  have hlknew : lookupA st'.data i = some mnew := by
    rw [hdata', ← hidnew]
    exact lookupA_insertA_self st.data (sig.id mnew) mnew
  have hlkother : ∀ r, r ≠ i → lookupA st'.data r = lookupA st.data r := by
    intro r hr
    rw [hdata']
    exact lookupA_insertA_ne st.data (sig.id mnew) r mnew (by rw [hidnew]; exact hr)
  -- a record found in the old bucket of `d` at a key `s` extracts to the
  -- unique IndexValue list formatting to `s`
  have hOldBucket : ∀ (C : IndexValue) (r : ι),
      r ∈ bucketL st.indices (d.name, IndexValue.toStr C) → r ≠ i →
      ∃ m', lookupA st.data r = some m' ∧ d.extract m' = [C] := by
    intro C r hrmem hrne
    have hcnt := hInv.countChar (d.name, IndexValue.toStr C) r
    rw [bucket] at hcnt
    have hpos := List.count_pos_iff.2 hrmem
    rw [hcnt] at hpos
    obtain ⟨d', hd', hdm⟩ : ∃ d' ∈ sig.defs,
        defMatches st r (d.name, IndexValue.toStr C) d' = true := by
      by_contra hc
      push_neg at hc
      rw [List.countP_eq_zero.2 (fun x hx => hc x hx)] at hpos
      exact absurd hpos (by simp)
    rw [defMatches] at hdm
    rcases hlr : lookupA st.data r with _ | m'
    · rw [hlr] at hdm
      cases hdm
    · rw [hlr] at hdm
      have hkey' := of_decide_eq_true hdm
      have hdd : d' = d := defs_name_inj hnames hd' hdmem
        (congrArg Prod.fst hkey')
      rw [hdd] at hkey'
      have hfmt : format_index_key (d.extract m') = format_index_key [C] := by
        rw [format_index_key_singleton]
        exact (Prod.mk.injEq .. ▸ hkey').2
      exact ⟨m', rfl, format_index_key_inj hfmt⟩
  refine ⟨_, _, find_by_index_eq A hreg, find_by_index_eq B hreg,
    ?_, ?_, ?_, ?_⟩
  · intro hmA
    obtain ⟨r, hr, hrm⟩ := List.mem_filterMap.1 hmA
    have hrid : sig.id mnew = r := hInv'.dataWF r mnew hrm
    have hri : r = i := by rw [← hrid, hidnew]
    rw [hri, hbA] at hr
    have := List.of_mem_filter hr
    simp at this
  · rw [count_filterMap_eq (fun r => ?_), hbB, List.count_append,
      count_filter_ne_self]
    · simp
    · constructor
      · intro hfr
        have := hInv'.dataWF r mnew hfr
        rw [← this, hidnew]
      · intro hfr
        rw [hfr]
        exact hlknew
  · intro hnoA
    have hbz : bucketL st'.indices (d.name, IndexValue.toStr A) = [] := by
      rw [hbA, List.filter_eq_nil_iff]
      intro r hrmem hrdec
      have hrne : r ≠ i := of_decide_eq_true hrdec
      obtain ⟨m', hlr, hext⟩ := hOldBucket A r hrmem hrne
      have hlr' : lookupA st'.data r = some m' := by
        rw [hlkother r hrne]
        exact hlr
      exact absurd hext (hnoA r m' hlr' hrne)
    rw [hbz]
    rfl
  · intro hnoB
    have hfil : (bucketL st.indices (d.name, IndexValue.toStr B)).filter
        (fun r => decide (r ≠ i)) = [] := by
      rw [List.filter_eq_nil_iff]
      intro r hrmem hrdec
      have hrne : r ≠ i := of_decide_eq_true hrdec
      obtain ⟨m', hlr, hext⟩ := hOldBucket B r hrmem hrne
      have hlr' : lookupA st'.data r = some m' := by
        rw [hlkother r hrne]
        exact hlr
      exact absurd hext (hnoB r m' hlr' hrne)
    rw [hbB, hfil, List.nil_append, List.filterMap_cons, hlknew]
    rfl

/-- Witness for C4: update record 1's payload from `a` to `b` in the test
store and inspect the unique index `e`. -/
theorem C4_witness :
    ∃ lA lB : List TestM,
      find_by_index testSig (updateOp testSig stW1 (1, ['b'])).2 ['e'] ⟨[['a']]⟩
          = Except.ok lA ∧
      find_by_index testSig (updateOp testSig stW1 (1, ['b'])).2 ['e'] ⟨[['b']]⟩
          = Except.ok lB ∧
      (1, ['b']) ∉ lA ∧
      @List.count TestM (@instBEqOfDecidableEq TestM inferInstance)
        (1, ['b']) lB = 1 ∧
      ((∀ i' m', lookupA (updateOp testSig stW1 (1, ['b'])).2.data i' = some m' →
          i' ≠ 1 → dE.extract m' ≠ [⟨[['a']]⟩]) → lA = []) ∧
      ((∀ i' m', lookupA (updateOp testSig stW1 (1, ['b'])).2.data i' = some m' →
          i' ≠ 1 → dE.extract m' ≠ [⟨[['b']]⟩]) → lB = [(1, ['b'])]) :=
  C4_update_moves_index testSig stW1 (updateOp testSig stW1 (1, ['b'])).2
    ['e'] dE 1 (1, ['a']) (1, ['b']) ⟨[['a']]⟩ ⟨[['b']]⟩
    testSig_names
    (Reachable.step (emptyInner TestM Nat) (Op.ins (1, ['a'])) Reachable.empty)
    rfl rfl rfl rfl rfl rfl (by decide)

end Palin



